import Mathlib

/-!
# PiggyBankArena

A shallow embedding of the functions of `PiggyBankArena.h`, together with
theorems about them.  The two sibling variants are embedded as well, each from
its own source: `PiggyBankArenaC.h` in the namespace `PiggyBankArenaC` (with its
helper `PiggyBankArenaRemainingSpace`), and the member functions of
`PiggyBankArenaCPP.hpp` as functions on the record `PiggyBankArena`.

Conventions of the embedding

* Addresses and `unsigned long` values are natural numbers below `WORD = 2^64`
  (LP64).  Every arithmetic operation of the source on them is reduced modulo
  `WORD` explicitly.
* `sizeof (struct PiggyBankArena)` and `sizeof (struct _PiggyBankArenaCleanupAction)`
  depend on the platform; they are the two fields of `Layout`.
* The header of the arena is the record `PiggyBankArena`; `base` is the address
  at which the header lives (the `memory` argument of `PiggyBankArenaInit`), so
  that the flexible array member `start` has address `base + headerSize`.
* The content of the buffer, read as cleanup-action slots, is the field
  `slots`: `slots p` is the `(func, argument)` pair stored in the slot that
  starts at address `p`.
* A `NULL` result is `none`, any other pointer result is `some address`: the
  addresses of a buffer are never the null address.
* Function pointers are code addresses.  Calling a cleanup callback is recorded
  by appending the called `(func, argument)` pair to a trace; callbacks are
  assumed not to touch the arena itself.
-/

namespace PiggyBank

/-- Number of values of an `unsigned long` and of a pointer: `2^64`. -/
def WORD : Nat := 18446744073709551616

/-- Wrapping subtraction of two machine words, `p - q` of the source. -/
def wsub (p q : Nat) : Nat := (p + WORD - q % WORD) % WORD

/-- Wrapping addition of two machine words, `p + q` of the source. -/
def wadd (p q : Nat) : Nat := (p + q) % WORD

/-- The two platform dependent sizes used by the source. -/
structure Layout where
  /-- The value of `sizeof (struct PiggyBankArena)`. -/
  headerSize : Nat
  /-- The value of `sizeof (struct _PiggyBankArenaCleanupAction)`. -/
  slotSize : Nat
  deriving DecidableEq

/-- The `struct _PiggyBankArenaCleanupAction`: a function pointer and its argument. -/
structure _PiggyBankArenaCleanupAction where
  func : Nat
  argument : Nat
  deriving DecidableEq

/-- The `struct PiggyBankArena`, with the address of the header and the buffer
content (read as action slots) made explicit. -/
structure PiggyBankArena where
  /-- Address of the header, the `memory` given to `PiggyBankArenaInit`. -/
  base : Nat
  /-- The field `end`. -/
  end_ : Nat
  heapTop : Nat
  cleanupActionsBottom : Nat
  /-- The slot stored at each address of the buffer. -/
  slots : Nat → _PiggyBankArenaCleanupAction

/-- Address of the flexible array member `arena->start`. -/
def PiggyBankArena.start (L : Layout) (arena : PiggyBankArena) : Nat :=
  wadd arena.base L.headerSize

/-- Store one action in the slot at address `p`. -/
def writeSlot (slots : Nat → _PiggyBankArenaCleanupAction) (p : Nat)
    (v : _PiggyBankArenaCleanupAction) : Nat → _PiggyBankArenaCleanupAction :=
  fun q => if q = p then v else slots q

/-- `PiggyBankArenaRemainingSpace` of `PiggyBankArenaC.h`, which is also the
expression `((unsigned char*) arena->cleanupActionsBottom) - arena->heapTop`
inlined in `PiggyBankArena.h`, converted to `unsigned long`. -/
def PiggyBankArenaRemainingSpace (arena : PiggyBankArena) : Nat :=
  wsub arena.cleanupActionsBottom arena.heapTop

/-- `PiggyBankArenaInit(memory, size)`; `slots` is the content of the buffer
at the time of the call, which the function does not touch. -/
def PiggyBankArenaInit (L : Layout) (slots : Nat → _PiggyBankArenaCleanupAction)
    (memory size : Nat) : Option PiggyBankArena :=
  if size ≤ L.headerSize then none
  else
    some { base := memory
           heapTop := wadd memory L.headerSize
           end_ := wadd memory size
           cleanupActionsBottom := wadd memory size
           slots := slots }

/-- `PiggyBankArenaAlloc(arena, size)`: the returned pointer and the arena after the call. -/
def PiggyBankArenaAlloc (arena : PiggyBankArena) (size : Nat) :
    Option Nat × PiggyBankArena :=
  let remainingSpace := wsub arena.cleanupActionsBottom arena.heapTop
  if remainingSpace < size then (none, arena)
  else
    let result := arena.heapTop
    (some result, { arena with heapTop := wadd arena.heapTop size })

/-- `PiggyBankArenaScheduleCleanup(arena, cleanupFunction, argument)`: the returned
slot pointer and the arena after the call. -/
def PiggyBankArenaScheduleCleanup (L : Layout) (arena : PiggyBankArena)
    (cleanupFunction argument : Nat) : Option Nat × PiggyBankArena :=
  let remainingSpace := wsub arena.cleanupActionsBottom arena.heapTop
  if remainingSpace < L.slotSize then (none, arena)
  else
    let bottom := wsub arena.cleanupActionsBottom L.slotSize
    (some bottom,
      { arena with
        cleanupActionsBottom := bottom
        slots := writeSlot arena.slots bottom ⟨cleanupFunction, argument⟩ })

/-- The `while (action < arena->end)` loop of `PiggyBankArenaCleanup`, started at
`action`; the result is the list of the `(func, argument)` pairs called, in call
order.  `fuel` bounds the number of iterations: `none` means the loop did not
finish within `fuel` iterations. -/
def cleanupLoop (L : Layout) (arena : PiggyBankArena) :
    Nat → Nat → Option (List _PiggyBankArenaCleanupAction)
  | 0, action => if action < arena.end_ then none else some []
  | fuel + 1, action =>
    if action < arena.end_ then
      match cleanupLoop L arena fuel (wadd action L.slotSize) with
      | none => none
      | some calls => some (arena.slots action :: calls)
    else some []

/-- `PiggyBankArenaCleanup(arena)`: the calls made, in order, and the arena after
the reset. -/
def PiggyBankArenaCleanup (L : Layout) (fuel : Nat) (arena : PiggyBankArena) :
    Option (List _PiggyBankArenaCleanupAction × PiggyBankArena) :=
  match cleanupLoop L arena fuel arena.cleanupActionsBottom with
  | none => none
  | some calls =>
    some (calls,
      { arena with
        heapTop := arena.start L
        cleanupActionsBottom := arena.end_ })

/-- What `PiggyBankArenaAllocObject<T>` uses of the type `T`. -/
structure ObjType where
  /-- The value of `sizeof(T)`. -/
  size : Nat
  /-- The address of the instance `_PiggyBankArenaDestroyObject<T>`. -/
  destroyObject : Nat
  deriving DecidableEq

/-- `PiggyBankArenaAllocObject<T>(arena, callDestructorOnCleanup)`. -/
def PiggyBankArenaAllocObject (L : Layout) (T : ObjType) (arena : PiggyBankArena)
    (callDestructorOnCleanup : Bool) : Option Nat × PiggyBankArena :=
  match PiggyBankArenaAlloc arena T.size with
  | (none, arena1) => (none, arena1)
  | (some result, arena1) =>
    if callDestructorOnCleanup then
      match PiggyBankArenaScheduleCleanup L arena1 T.destroyObject result with
      | (none, arena2) => (none, { arena2 with heapTop := wsub arena2.heapTop T.size })
      | (some _, arena2) => (some result, arena2)
    else (some result, arena1)

/-- The ordering `dataStart ≤ heapTop ≤ cleanupActionsBottom ≤ end`. -/
def Ordered (L : Layout) (a : PiggyBankArena) : Prop :=
  a.start L ≤ a.heapTop ∧ a.heapTop ≤ a.cleanupActionsBottom ∧
    a.cleanupActionsBottom ≤ a.end_

instance (L : Layout) (a : PiggyBankArena) : Decidable (Ordered L a) := by
  unfold Ordered; infer_instance

/-- The fields of the header are pointer values: `end` (hence, under the
ordering, every field) is below `2^64`. -/
def InRange (a : PiggyBankArena) : Prop := a.end_ < WORD

instance (a : PiggyBankArena) : Decidable (InRange a) := by
  unfold InRange; infer_instance

/-- A platform with 8-byte pointers: a 24-byte header and 16-byte action slots. -/
def lp64 : Layout := ⟨24, 16⟩

/-- A buffer content in which every slot holds the null action. -/
def zeroSlots : Nat → _PiggyBankArenaCleanupAction := fun _ => ⟨0, 0⟩

/-- An arena at address 4096 over a buffer of 24 + 64 bytes, with 8 bytes allocated. -/
def sampleArena : PiggyBankArena :=
  { base := 4096, end_ := 4184, heapTop := 4128, cleanupActionsBottom := 4184,
    slots := zeroSlots }

/-- An arena at address 4096 over a buffer of 24 + 64 bytes whose heap side has
grown to 4 bytes below the action stack. -/
def fullArena : PiggyBankArena :=
  { base := 4096, end_ := 4184, heapTop := 4164, cleanupActionsBottom := 4168,
    slots := writeSlot zeroSlots 4168 ⟨7, 9⟩ }

/-- One call of the allocating part of the interface. -/
inductive ArenaCall where
  | alloc (size : Nat)
  | scheduleCleanup (cleanupFunction argument : Nat)
  | allocObject (T : ObjType) (callDestructorOnCleanup : Bool)
  deriving DecidableEq

/-- Result and arena after one call. -/
def ArenaCall.apply (L : Layout) (a : PiggyBankArena) : ArenaCall → Option Nat × PiggyBankArena
  | .alloc size => PiggyBankArenaAlloc a size
  | .scheduleCleanup f x => PiggyBankArenaScheduleCleanup L a f x
  | .allocObject T flag => PiggyBankArenaAllocObject L T a flag

/-- The `(callback, argument)` pair that a call registered, read off the call and
the pointer it returned: a `scheduleCleanup(f, x)` that did not return `NULL`
registered `(f, x)`; an `allocObject<T>(true)` that returned `p ≠ NULL` registered
the destructor wrapper of `T` on `p`; any other call registered nothing. -/
def ArenaCall.registered (L : Layout) (a : PiggyBankArena) :
    ArenaCall → Option _PiggyBankArenaCleanupAction
  | .alloc _ => none
  | .scheduleCleanup f x =>
    match (PiggyBankArenaScheduleCleanup L a f x).1 with
    | some _ => some ⟨f, x⟩
    | none => none
  | .allocObject T true =>
    match (PiggyBankArenaAllocObject L T a true).1 with
    | some p => some ⟨T.destroyObject, p⟩
    | none => none
  | .allocObject _ false => none

/-- The arena after a sequence of calls. -/
def runCalls (L : Layout) : List ArenaCall → PiggyBankArena → PiggyBankArena
  | [], a => a
  | c :: cs, a => runCalls L cs (c.apply L a).2

/-- The pairs registered by a sequence of calls, in registration order. -/
def registeredBy (L : Layout) : List ArenaCall → PiggyBankArena →
    List _PiggyBankArenaCleanupAction
  | [], _ => []
  | c :: cs, a => (c.registered L a).toList ++ registeredBy L cs (c.apply L a).2

/-- The content of `n` consecutive slots, the first one at address `p`. -/
def slotList (L : Layout) (slots : Nat → _PiggyBankArenaCleanupAction) :
    Nat → Nat → List _PiggyBankArenaCleanupAction
  | _, 0 => []
  | p, n + 1 => slots p :: slotList L slots (p + L.slotSize) n

/-- The arena states that can be reached from a successful
`PiggyBankArenaInit(memory, size)` by calls of `alloc`, `scheduleCleanup`,
`allocObject` and by cleanups that return. -/
inductive Reachable (L : Layout) (memory size : Nat) : PiggyBankArena → Prop where
  | init (slots : Nat → _PiggyBankArenaCleanupAction) (a : PiggyBankArena) :
      PiggyBankArenaInit L slots memory size = some a → Reachable L memory size a
  | call (a : PiggyBankArena) (c : ArenaCall) :
      Reachable L memory size a → Reachable L memory size (c.apply L a).2
  | cleanup (a : PiggyBankArena) (fuel : Nat) (calls : List _PiggyBankArenaCleanupAction)
      (a' : PiggyBankArena) :
      Reachable L memory size a → PiggyBankArenaCleanup L fuel a = some (calls, a') →
      Reachable L memory size a'

/-- The type `_TestStruct` of the tests: 8 bytes, destructor wrapper at a fixed code address. -/
def testStruct : ObjType := ⟨8, 21845⟩

/-- The arena that `PiggyBankArenaInit` makes of the 24 + 64 bytes at address 4096. -/
def freshArena : PiggyBankArena := ⟨4096, 4184, 4120, 4184, zeroSlots⟩

/-- The arena that `PiggyBankArenaInit` makes of the 24 + 2 * 8 + 16 bytes at
address 4096, the buffer of the test of the failing typed allocation. -/
def smallArena : PiggyBankArena := ⟨4096, 4152, 4120, 4152, zeroSlots⟩

/-- A sequence of calls that fills `freshArena`; the last registration fails. -/
def sampleCalls : List ArenaCall :=
  [.scheduleCleanup 1 10, .alloc 8, .allocObject testStruct true, .scheduleCleanup 2 20,
    .scheduleCleanup 3 30]

/-- The bytes that a call handed out, read off the call and the pointer it
returned: an `alloc(size)` or an `allocObject<T>` (either flag) that returned
`p ≠ NULL` handed out `size` (resp. `sizeof(T)`) bytes at `p`. -/
def ArenaCall.allocation (L : Layout) (a : PiggyBankArena) : ArenaCall → Option (Nat × Nat)
  | .alloc size =>
    match (PiggyBankArenaAlloc a size).1 with
    | some p => some (p, size)
    | none => none
  | .scheduleCleanup _ _ => none
  | .allocObject T flag =>
    match (PiggyBankArenaAllocObject L T a flag).1 with
    | some p => some (p, T.size)
    | none => none

/-- The number of bytes that a call handed out, `0` for a call that failed. -/
def ArenaCall.allocated (L : Layout) (a : PiggyBankArena) (c : ArenaCall) : Nat :=
  match c.allocation L a with
  | some (_, s) => s
  | none => 0

/-- The `(address, size)` pairs handed out by a sequence of calls, in call order. -/
def allocationsBy (L : Layout) : List ArenaCall → PiggyBankArena → List (Nat × Nat)
  | [], _ => []
  | c :: cs, a => (c.allocation L a).toList ++ allocationsBy L cs (c.apply L a).2

/-- The pointers returned by a sequence of calls, in call order. -/
def callResults (L : Layout) : List ArenaCall → PiggyBankArena → List (Option Nat)
  | [], _ => []
  | c :: cs, a => (c.apply L a).1 :: callResults L cs (c.apply L a).2

/-- Each call of a sequence together with the pointer it returned. -/
def callLog (L : Layout) : List ArenaCall → PiggyBankArena → List (ArenaCall × Option Nat)
  | [], _ => []
  | c :: cs, a => (c, (c.apply L a).1) :: callLog L cs (c.apply L a).2

/-- The calls `scheduleCleanup(f, x)` for a list of `(f, x)` pairs. -/
def scheduleCalls (regs : List (Nat × Nat)) : List ArenaCall :=
  regs.map (fun r => ArenaCall.scheduleCleanup r.1 r.2)

/-- The reachable states, each with the number of bytes handed out and the
number of cleanup actions registered since the last initialisation or cleanup:
a call adds the bytes it handed out and `1` if it registered an action, a
failed call adds nothing, a cleanup sets both counts back to `0`. -/
inductive ReachableWith (L : Layout) (memory size : Nat) :
    PiggyBankArena → Nat → Nat → Prop where
  | init (slots : Nat → _PiggyBankArenaCleanupAction) (a : PiggyBankArena) :
      PiggyBankArenaInit L slots memory size = some a → ReachableWith L memory size a 0 0
  | call (a : PiggyBankArena) (c : ArenaCall) (m n : Nat) :
      ReachableWith L memory size a m n →
      ReachableWith L memory size (c.apply L a).2 (m + c.allocated L a)
        (n + (c.registered L a).toList.length)
  | cleanup (a : PiggyBankArena) (fuel : Nat) (calls : List _PiggyBankArenaCleanupAction)
      (a' : PiggyBankArena) (m n : Nat) :
      ReachableWith L memory size a m n → PiggyBankArenaCleanup L fuel a = some (calls, a') →
      ReachableWith L memory size a' 0 0

/-- One operation of the interface: a call, or `PiggyBankArenaCleanup`. -/
inductive ArenaOp where
  | call (c : ArenaCall)
  | cleanup
  deriving DecidableEq

/-- What a caller observes of one operation: the pointer that a call returned, or
the list of `(func, argument)` pairs that a cleanup called, in call order. -/
inductive Observation where
  | returned (result : Option Nat)
  | invoked (calls : List _PiggyBankArenaCleanupAction)
  deriving DecidableEq

/-- The observations made along a sequence of operations and the final arena; `none`
when one of the cleanups did not finish within `fuel` iterations of its loop. -/
def runOps (L : Layout) (fuel : Nat) :
    List ArenaOp → PiggyBankArena → Option (List Observation × PiggyBankArena)
  | [], a => some ([], a)
  | .call c :: ops, a =>
    match runOps L fuel ops (c.apply L a).2 with
    | none => none
    | some (obs, b) => some (.returned (c.apply L a).1 :: obs, b)
  | .cleanup :: ops, a =>
    match PiggyBankArenaCleanup L fuel a with
    | none => none
    | some (calls, a1) =>
      match runOps L fuel ops a1 with
      | none => none
      | some (obs, b) => some (.invoked calls :: obs, b)

/-- A zero-size raw allocation followed by a typed allocation with destructor. -/
def zeroThenObject : List ArenaCall := [.alloc 0, .allocObject testStruct true]

/-- The arena that `PiggyBankArenaInit` makes of the 24 + 3 * 16 bytes at address
4096, the buffer of the test of the cleanup actions. -/
def slotsArena : PiggyBankArena := ⟨4096, 4168, 4120, 4168, zeroSlots⟩

/-- The arena that `PiggyBankArenaInit` makes of the 24 + 64 bytes at address 4096
when the buffer still holds an action from an earlier use. -/
def staleArena : PiggyBankArena := ⟨4096, 4184, 4120, 4184, writeSlot zeroSlots 4168 ⟨7, 9⟩⟩

/-- A sequence of operations with a cleanup in the middle. -/
def sampleOps : List ArenaOp :=
  [.call (.scheduleCleanup 1 10), .call (.allocObject testStruct true), .cleanup,
    .call (.alloc 8), .cleanup]

/-- A raw allocation of 8 bytes whose address the caller then registers with the
destructor wrapper of `_TestStruct` through `scheduleCleanup`. -/
def handRegistered : List ArenaCall :=
  [.alloc 8, .scheduleCleanup testStruct.destroyObject 4120]

/-- The `while (action < arena->end)` loop of `PiggyBankArenaCleanup` once more,
this time returning the addresses `action` at which the body reads a slot, one
per iteration, in order; `none` means the loop did not finish within `fuel`
iterations. -/
def cleanupVisits (L : Layout) (arena : PiggyBankArena) : Nat → Nat → Option (List Nat)
  | 0, action => if action < arena.end_ then none else some []
  | fuel + 1, action =>
    if action < arena.end_ then
      match cleanupVisits L arena fuel (wadd action L.slotSize) with
      | none => none
      | some visits => some (action :: visits)
    else some []

/-- The start addresses of `n` consecutive slots, the first one at address `p`. -/
def slotAddresses (L : Layout) : Nat → Nat → List Nat
  | _, 0 => []
  | p, n + 1 => p :: slotAddresses L (p + L.slotSize) n

/-! ### The variant `PiggyBankArenaC.h` -/

/-- `PiggyBankArenaInit` of `PiggyBankArenaC.h`. -/
def PiggyBankArenaC.PiggyBankArenaInit (L : Layout)
    (slots : Nat → _PiggyBankArenaCleanupAction) (memory size : Nat) : Option PiggyBankArena :=
  if size ≤ L.headerSize then none
  else
    some { base := memory
           heapTop := wadd memory L.headerSize
           end_ := wadd memory size
           cleanupActionsBottom := wadd memory size
           slots := slots }

/-- `PiggyBankArenaAlloc` of `PiggyBankArenaC.h`, which asks
`PiggyBankArenaRemainingSpace` for the space left. -/
def PiggyBankArenaC.PiggyBankArenaAlloc (arena : PiggyBankArena) (size : Nat) :
    Option Nat × PiggyBankArena :=
  let remainingSpace := PiggyBankArenaRemainingSpace arena
  if remainingSpace < size then (none, arena)
  else
    let result := arena.heapTop
    (some result, { arena with heapTop := wadd arena.heapTop size })

/-- `PiggyBankArenaScheduleCleanup` of `PiggyBankArenaC.h`. -/
def PiggyBankArenaC.PiggyBankArenaScheduleCleanup (L : Layout) (arena : PiggyBankArena)
    (cleanupFunction argument : Nat) : Option Nat × PiggyBankArena :=
  let remainingSpace := PiggyBankArenaRemainingSpace arena
  if remainingSpace < L.slotSize then (none, arena)
  else
    let bottom := wsub arena.cleanupActionsBottom L.slotSize
    (some bottom,
      { arena with
        cleanupActionsBottom := bottom
        slots := writeSlot arena.slots bottom ⟨cleanupFunction, argument⟩ })

/-- The loop of `PiggyBankArenaCleanup` of `PiggyBankArenaC.h`. -/
def PiggyBankArenaC.cleanupLoop (L : Layout) (arena : PiggyBankArena) :
    Nat → Nat → Option (List _PiggyBankArenaCleanupAction)
  | 0, action => if action < arena.end_ then none else some []
  | fuel + 1, action =>
    if action < arena.end_ then
      match PiggyBankArenaC.cleanupLoop L arena fuel (wadd action L.slotSize) with
      | none => none
      | some calls => some (arena.slots action :: calls)
    else some []

/-- `PiggyBankArenaCleanup` of `PiggyBankArenaC.h`. -/
def PiggyBankArenaC.PiggyBankArenaCleanup (L : Layout) (fuel : Nat) (arena : PiggyBankArena) :
    Option (List _PiggyBankArenaCleanupAction × PiggyBankArena) :=
  match PiggyBankArenaC.cleanupLoop L arena fuel arena.cleanupActionsBottom with
  | none => none
  | some calls =>
    some (calls,
      { arena with
        heapTop := arena.start L
        cleanupActionsBottom := arena.end_ })

/-! ### The variant `PiggyBankArenaCPP.hpp`: the members of `struct PiggyBankArena` -/

/-- The static member `PiggyBankArena::init`. -/
def PiggyBankArena.init (L : Layout) (slots : Nat → _PiggyBankArenaCleanupAction)
    (memory size : Nat) : Option PiggyBankArena :=
  if size ≤ L.headerSize then none
  else
    some { base := memory
           heapTop := wadd memory L.headerSize
           end_ := wadd memory size
           cleanupActionsBottom := wadd memory size
           slots := slots }

/-- The member `PiggyBankArena::remainingSpace`. -/
def PiggyBankArena.remainingSpace (self : PiggyBankArena) : Nat :=
  wsub self.cleanupActionsBottom self.heapTop

/-- The member `PiggyBankArena::alloc`. -/
def PiggyBankArena.alloc (self : PiggyBankArena) (size : Nat) : Option Nat × PiggyBankArena :=
  if self.remainingSpace < size then (none, self)
  else
    let result := self.heapTop
    (some result, { self with heapTop := wadd self.heapTop size })

/-- The member `PiggyBankArena::scheduleCleanup`. -/
def PiggyBankArena.scheduleCleanup (L : Layout) (self : PiggyBankArena)
    (cleanupFunction argument : Nat) : Option Nat × PiggyBankArena :=
  if self.remainingSpace < L.slotSize then (none, self)
  else
    let bottom := wsub self.cleanupActionsBottom L.slotSize
    (some bottom,
      { self with
        cleanupActionsBottom := bottom
        slots := writeSlot self.slots bottom ⟨cleanupFunction, argument⟩ })

/-- The member template `PiggyBankArena::allocObject<T>`; `T.destroyObject` is the
address of the instance `PiggyBankArena::_destroyObject<T>`. -/
def PiggyBankArena.allocObject (L : Layout) (T : ObjType) (self : PiggyBankArena)
    (callDestructorOnCleanup : Bool) : Option Nat × PiggyBankArena :=
  match self.alloc T.size with
  | (none, self1) => (none, self1)
  | (some result, self1) =>
    if callDestructorOnCleanup then
      match self1.scheduleCleanup L T.destroyObject result with
      | (none, self2) => (none, { self2 with heapTop := wsub self2.heapTop T.size })
      | (some _, self2) => (some result, self2)
    else (some result, self1)

/-- The loop of the member `PiggyBankArena::cleanup`. -/
def PiggyBankArena.cleanupLoop (L : Layout) (self : PiggyBankArena) :
    Nat → Nat → Option (List _PiggyBankArenaCleanupAction)
  | 0, action => if action < self.end_ then none else some []
  | fuel + 1, action =>
    if action < self.end_ then
      match PiggyBankArena.cleanupLoop L self fuel (wadd action L.slotSize) with
      | none => none
      | some calls => some (self.slots action :: calls)
    else some []

/-- The member `PiggyBankArena::cleanup`. -/
def PiggyBankArena.cleanup (L : Layout) (fuel : Nat) (self : PiggyBankArena) :
    Option (List _PiggyBankArenaCleanupAction × PiggyBankArena) :=
  match PiggyBankArena.cleanupLoop L self fuel self.cleanupActionsBottom with
  | none => none
  | some calls =>
    some (calls,
      { self with
        heapTop := self.start L
        cleanupActionsBottom := self.end_ })

/-- The wrapper `_PiggyBankArenaDestroyObject<T>(obj)` of `PiggyBankArena.h`: the
address on which it runs the destructor of `T`, none for the null pointer. -/
def _PiggyBankArenaDestroyObject (obj : Nat) : Option Nat :=
  if obj ≠ 0 then some obj else none

/-- The wrapper `PiggyBankArena::_destroyObject<T>(obj)` of `PiggyBankArenaCPP.hpp`. -/
def PiggyBankArena._destroyObject (obj : Nat) : Option Nat :=
  if obj ≠ 0 then some obj else none

/-- One step of `PiggyBankArenaCleanup` that is visible from outside: a call
`action->func(action->argument)`, together with the values that the header
fields `heapTop` and `cleanupActionsBottom` hold at the moment of the call, or
one of the two writes to the header that follow the loop. -/
inductive CleanupEvent where
  | call (action : _PiggyBankArenaCleanupAction) (heapTop cleanupActionsBottom : Nat)
  | setHeapTop (value : Nat)
  | setCleanupActionsBottom (value : Nat)
  deriving DecidableEq

/-- The `while (action < arena->end)` loop of `PiggyBankArenaCleanup`, returning
one `call` event per iteration, in order; the loop does not write to the header,
so each call sees the fields of `arena`. -/
def cleanupEventsLoop (L : Layout) (arena : PiggyBankArena) :
    Nat → Nat → Option (List CleanupEvent)
  | 0, action => if action < arena.end_ then none else some []
  | fuel + 1, action =>
    if action < arena.end_ then
      match cleanupEventsLoop L arena fuel (wadd action L.slotSize) with
      | none => none
      | some events =>
        some (.call (arena.slots action) arena.heapTop arena.cleanupActionsBottom :: events)
    else some []

/-- `PiggyBankArenaCleanup(arena)` statement by statement: the events of the loop,
then `arena->heapTop = arena->start`, then `arena->cleanupActionsBottom =
arena->end`, each write recorded with the value written; and the arena after the
last statement. -/
def PiggyBankArenaCleanupEvents (L : Layout) (fuel : Nat) (arena : PiggyBankArena) :
    Option (List CleanupEvent × PiggyBankArena) :=
  match cleanupEventsLoop L arena fuel arena.cleanupActionsBottom with
  | none => none
  | some events =>
    let arena1 := { arena with heapTop := arena.start L }
    let arena2 := { arena1 with cleanupActionsBottom := arena1.end_ }
    some (events ++ [.setHeapTop arena1.heapTop,
      .setCleanupActionsBottom arena2.cleanupActionsBottom], arena2)

/-! ## Machine arithmetic -/

theorem wsub_of_le {p q : Nat} (hq : q ≤ p) (hp : p < WORD) : wsub p q = p - q := by
  unfold wsub WORD at *
  omega

theorem wadd_of_lt {p q : Nat} (h : p + q < WORD) : wadd p q = p + q := by
  unfold wadd WORD at *
  omega

theorem wsub_lt (p q : Nat) : wsub p q < WORD := by
  unfold wsub WORD
  omega

theorem wadd_lt (p q : Nat) : wadd p q < WORD := by
  unfold wadd WORD
  omega

/-- Under the ordering, the remaining space is the plain difference. -/
theorem remaining_of_ordered {L : Layout} {a : PiggyBankArena} (ho : Ordered L a)
    (hr : InRange a) :
    wsub a.cleanupActionsBottom a.heapTop = a.cleanupActionsBottom - a.heapTop := by
  obtain ⟨_, h2, h3⟩ := ho
  unfold InRange at hr
  exact wsub_of_le h2 (by omega)

/-! ## Initialisation -/

/-- C1: `PiggyBankArenaInit` returns `NULL` exactly when `size ≤ sizeof (struct
PiggyBankArena)`; it fails for `size = headerSize` and succeeds for
`size = headerSize + 1`. -/
theorem init_null_iff (L : Layout) (slots : Nat → _PiggyBankArenaCleanupAction)
    (memory size : Nat) :
    (PiggyBankArenaInit L slots memory size = none ↔ size ≤ L.headerSize) ∧
      PiggyBankArenaInit L slots memory L.headerSize = none ∧
      (PiggyBankArenaInit L slots memory (L.headerSize + 1)).isSome = true := by
  refine ⟨?_, ?_, ?_⟩
  · unfold PiggyBankArenaInit
    by_cases h : size ≤ L.headerSize <;> simp [h]
  · simp [PiggyBankArenaInit]
  · simp [PiggyBankArenaInit]

/-- The loop of the cleanup makes no call when started at or above `end`. -/
theorem cleanupLoop_of_ge (L : Layout) (a : PiggyBankArena) (fuel action : Nat)
    (h : a.end_ ≤ action) : cleanupLoop L a fuel action = some [] := by
  cases fuel <;> simp [cleanupLoop, Nat.not_lt.mpr h]

/-- C2: after a successful `PiggyBankArenaInit(memory, size)` on a block that
lies in the address space, the arena is at `memory`, `heapTop = start = memory +
headerSize`, `cleanupActionsBottom = end = memory + size`; the buffer content is
untouched, the remaining space is `size - headerSize`, and a cleanup would call
nothing. -/
theorem init_fields (L : Layout) (slots : Nat → _PiggyBankArenaCleanupAction)
    (memory size : Nat) (a : PiggyBankArena) (hblock : memory + size < WORD)
    (h : PiggyBankArenaInit L slots memory size = some a) :
    a.base = memory ∧ a.heapTop = memory + L.headerSize ∧
      a.start L = memory + L.headerSize ∧
      a.cleanupActionsBottom = memory + size ∧ a.end_ = memory + size ∧
      a.slots = slots ∧
      PiggyBankArenaRemainingSpace a = size - L.headerSize ∧
      ∀ fuel, cleanupLoop L a fuel a.cleanupActionsBottom = some [] := by
  unfold PiggyBankArenaInit at h
  by_cases hs : size ≤ L.headerSize
  · simp [hs] at h
  · simp only [hs, if_false, Option.some.injEq] at h
    subst h
    have h1 : wadd memory L.headerSize = memory + L.headerSize :=
      wadd_of_lt (by omega)
    have h2 : wadd memory size = memory + size := wadd_of_lt hblock
    refine ⟨rfl, h1, h1, h2, h2, rfl, ?_, ?_⟩
    · simp only [PiggyBankArenaRemainingSpace, h1, h2]
      rw [wsub_of_le (by omega) hblock]
      omega
    · intro fuel
      exact cleanupLoop_of_ge L _ fuel _ (Nat.le_refl _)

/-- Witness of C2 -/
theorem init_fields_witness :
    (4096 + 88 < WORD ∧ PiggyBankArenaInit lp64 zeroSlots 4096 88 =
        some ⟨4096, 4184, 4120, 4184, zeroSlots⟩) ∧
      (4120 : Nat) = 4096 + lp64.headerSize :=
  ⟨⟨by decide, rfl⟩,
    (init_fields lp64 zeroSlots 4096 88 ⟨4096, 4184, 4120, 4184, zeroSlots⟩
      (by decide) rfl).2.1⟩

/-! ## Raw allocation -/

/-- C3: under the ordering, for every `size ≤ cleanupActionsBottom - heapTop`
(the exact fit included), `PiggyBankArenaAlloc` returns the old `heapTop`, moves
`heapTop` up by `size` and changes nothing else. -/
theorem alloc_success (L : Layout) (a : PiggyBankArena) (size : Nat)
    (ho : Ordered L a) (hr : InRange a)
    (hfit : size ≤ a.cleanupActionsBottom - a.heapTop) :
    (PiggyBankArenaAlloc a size).1 = some a.heapTop ∧
      (PiggyBankArenaAlloc a size).2.heapTop = a.heapTop + size ∧
      (PiggyBankArenaAlloc a size).2.end_ = a.end_ ∧
      (PiggyBankArenaAlloc a size).2.cleanupActionsBottom = a.cleanupActionsBottom ∧
      (PiggyBankArenaAlloc a size).2.slots = a.slots ∧
      (PiggyBankArenaAlloc a size).2.base = a.base := by
  have hrem := remaining_of_ordered ho hr
  obtain ⟨_, h2, h3⟩ := ho
  unfold InRange at hr
  have hnot : ¬ a.cleanupActionsBottom - a.heapTop < size := by omega
  have hadd : wadd a.heapTop size = a.heapTop + size := wadd_of_lt (by omega)
  simp [PiggyBankArenaAlloc, hrem, hnot, hadd]

/-- Witness of C3: the exact-fit request of 56 bytes on `sampleArena`. -/
theorem alloc_success_witness :
    (Ordered lp64 sampleArena ∧ InRange sampleArena ∧
        56 ≤ sampleArena.cleanupActionsBottom - sampleArena.heapTop) ∧
      (PiggyBankArenaAlloc sampleArena 56).1 = some sampleArena.heapTop ∧
      (PiggyBankArenaAlloc sampleArena 56).2.heapTop = sampleArena.heapTop + 56 :=
  ⟨⟨by decide, by decide, by decide⟩,
    (alloc_success lp64 sampleArena 56 (by decide) (by decide) (by decide)).1,
    (alloc_success lp64 sampleArena 56 (by decide) (by decide) (by decide)).2.1⟩

/-- C4: under the ordering, `PiggyBankArenaAlloc` returns `NULL` exactly when
`cleanupActionsBottom - heapTop < size`, and a call that returns `NULL` leaves
the arena as it was. -/
theorem alloc_null_iff (L : Layout) (a : PiggyBankArena) (size : Nat)
    (ho : Ordered L a) (hr : InRange a) :
    ((PiggyBankArenaAlloc a size).1 = none ↔ a.cleanupActionsBottom - a.heapTop < size) ∧
      ((PiggyBankArenaAlloc a size).1 = none → (PiggyBankArenaAlloc a size).2 = a) := by
  have hrem := remaining_of_ordered ho hr
  unfold PiggyBankArenaAlloc
  simp only [hrem]
  by_cases h : a.cleanupActionsBottom - a.heapTop < size <;> simp [h]

/-- Witness of C4: 57 bytes do not fit in the 56 remaining bytes of `sampleArena`. -/
theorem alloc_null_iff_witness :
    (Ordered lp64 sampleArena ∧ InRange sampleArena) ∧
      ((PiggyBankArenaAlloc sampleArena 57).1 = none ↔
        sampleArena.cleanupActionsBottom - sampleArena.heapTop < 57) :=
  ⟨⟨by decide, by decide⟩, (alloc_null_iff lp64 sampleArena 57 (by decide) (by decide)).1⟩

/-! ## Registration of cleanup actions -/

/-- C5: under the ordering, when at least one slot of space remains,
`PiggyBankArenaScheduleCleanup(arena, f, x)` lowers `cleanupActionsBottom` by one
slot, stores `(f, x)` in the slot at the new bottom, returns the address of that
slot, and leaves `heapTop`, `end` and every other slot (in particular the slots
registered before, which lie at or above the old bottom) unchanged. -/
theorem scheduleCleanup_success (L : Layout) (a : PiggyBankArena) (f x : Nat)
    (ho : Ordered L a) (hr : InRange a)
    (hfit : L.slotSize ≤ a.cleanupActionsBottom - a.heapTop) :
    (PiggyBankArenaScheduleCleanup L a f x).1 = some (a.cleanupActionsBottom - L.slotSize) ∧
      (PiggyBankArenaScheduleCleanup L a f x).2.cleanupActionsBottom
        = a.cleanupActionsBottom - L.slotSize ∧
      (PiggyBankArenaScheduleCleanup L a f x).2.slots (a.cleanupActionsBottom - L.slotSize)
        = ⟨f, x⟩ ∧
      (PiggyBankArenaScheduleCleanup L a f x).2.heapTop = a.heapTop ∧
      (PiggyBankArenaScheduleCleanup L a f x).2.end_ = a.end_ ∧
      (PiggyBankArenaScheduleCleanup L a f x).2.base = a.base ∧
      (∀ p, p ≠ a.cleanupActionsBottom - L.slotSize →
        (PiggyBankArenaScheduleCleanup L a f x).2.slots p = a.slots p) ∧
      (0 < L.slotSize → ∀ p, a.cleanupActionsBottom ≤ p →
        (PiggyBankArenaScheduleCleanup L a f x).2.slots p = a.slots p) := by
  have hrem := remaining_of_ordered ho hr
  obtain ⟨_, h2, h3⟩ := ho
  unfold InRange at hr
  have hnot : ¬ a.cleanupActionsBottom - a.heapTop < L.slotSize := by omega
  have hsub : wsub a.cleanupActionsBottom L.slotSize = a.cleanupActionsBottom - L.slotSize :=
    wsub_of_le (by omega) (by omega)
  simp only [PiggyBankArenaScheduleCleanup, hrem, hnot, if_false, hsub, writeSlot, if_true,
    true_and]
  refine ⟨?_, ?_⟩
  · intro p hp
    simp [hp]
  · intro hpos p hp
    have : p ≠ a.cleanupActionsBottom - L.slotSize := by omega
    simp [this]

/-- Witness of C5: one registration on `sampleArena`. -/
theorem scheduleCleanup_success_witness :
    (Ordered lp64 sampleArena ∧ InRange sampleArena ∧
        lp64.slotSize ≤ sampleArena.cleanupActionsBottom - sampleArena.heapTop) ∧
      (PiggyBankArenaScheduleCleanup lp64 sampleArena 7 9).1
        = some (sampleArena.cleanupActionsBottom - lp64.slotSize) :=
  ⟨⟨by decide, by decide, by decide⟩,
    (scheduleCleanup_success lp64 sampleArena 7 9 (by decide) (by decide) (by decide)).1⟩

/-- C6: under the ordering, `PiggyBankArenaScheduleCleanup` returns `NULL` exactly
when `cleanupActionsBottom - heapTop < sizeof (struct _PiggyBankArenaCleanupAction)`,
and a call that returns `NULL` leaves the arena as it was. -/
theorem scheduleCleanup_null_iff (L : Layout) (a : PiggyBankArena) (f x : Nat)
    (ho : Ordered L a) (hr : InRange a) :
    ((PiggyBankArenaScheduleCleanup L a f x).1 = none ↔
        a.cleanupActionsBottom - a.heapTop < L.slotSize) ∧
      ((PiggyBankArenaScheduleCleanup L a f x).1 = none →
        (PiggyBankArenaScheduleCleanup L a f x).2 = a) := by
  have hrem := remaining_of_ordered ho hr
  unfold PiggyBankArenaScheduleCleanup
  simp only [hrem]
  by_cases h : a.cleanupActionsBottom - a.heapTop < L.slotSize <;> simp [h]

/-- Witness of C6: no slot fits in the 4 remaining bytes of `fullArena`. -/
theorem scheduleCleanup_null_iff_witness :
    (Ordered lp64 fullArena ∧ InRange fullArena) ∧
      ((PiggyBankArenaScheduleCleanup lp64 fullArena 7 9).1 = none ↔
        fullArena.cleanupActionsBottom - fullArena.heapTop < lp64.slotSize) :=
  ⟨⟨by decide, by decide⟩,
    (scheduleCleanup_null_iff lp64 fullArena 7 9 (by decide) (by decide)).1⟩

/-! ## The operations under the ordering -/

/-- Under the ordering `PiggyBankArenaAlloc` is plain bump allocation. -/
theorem alloc_eq {L : Layout} {a : PiggyBankArena} (ho : Ordered L a) (hr : InRange a)
    (size : Nat) :
    PiggyBankArenaAlloc a size =
      if a.cleanupActionsBottom - a.heapTop < size then (none, a)
      else (some a.heapTop, { a with heapTop := a.heapTop + size }) := by
  have hrem := remaining_of_ordered ho hr
  obtain ⟨_, h2, h3⟩ := ho
  unfold InRange at hr
  unfold PiggyBankArenaAlloc
  simp only [hrem]
  by_cases h : a.cleanupActionsBottom - a.heapTop < size
  · simp [h]
  · have hadd : wadd a.heapTop size = a.heapTop + size := wadd_of_lt (by omega)
    simp [h, hadd]

/-- Under the ordering `PiggyBankArenaScheduleCleanup` is a plain push. -/
theorem scheduleCleanup_eq {L : Layout} {a : PiggyBankArena} (ho : Ordered L a)
    (hr : InRange a) (f x : Nat) :
    PiggyBankArenaScheduleCleanup L a f x =
      if a.cleanupActionsBottom - a.heapTop < L.slotSize then (none, a)
      else (some (a.cleanupActionsBottom - L.slotSize),
        { a with
          cleanupActionsBottom := a.cleanupActionsBottom - L.slotSize
          slots := writeSlot a.slots (a.cleanupActionsBottom - L.slotSize) ⟨f, x⟩ }) := by
  have hrem := remaining_of_ordered ho hr
  obtain ⟨_, h2, h3⟩ := ho
  unfold InRange at hr
  unfold PiggyBankArenaScheduleCleanup
  simp only [hrem]
  by_cases h : a.cleanupActionsBottom - a.heapTop < L.slotSize
  · simp [h]
  · have hsub : wsub a.cleanupActionsBottom L.slotSize = a.cleanupActionsBottom - L.slotSize :=
      wsub_of_le (by omega) (by omega)
    simp [h, hsub]

/-- Under the ordering `PiggyBankArenaAllocObject` does all of its steps or none. -/
theorem allocObject_eq {L : Layout} {a : PiggyBankArena} (ho : Ordered L a)
    (hr : InRange a) (T : ObjType) (flag : Bool) :
    PiggyBankArenaAllocObject L T a flag =
      if a.cleanupActionsBottom - a.heapTop < T.size then (none, a)
      else if flag = true then
        if a.cleanupActionsBottom - a.heapTop - T.size < L.slotSize then (none, a)
        else (some a.heapTop,
          { a with
            heapTop := a.heapTop + T.size
            cleanupActionsBottom := a.cleanupActionsBottom - L.slotSize
            slots := writeSlot a.slots (a.cleanupActionsBottom - L.slotSize)
              ⟨T.destroyObject, a.heapTop⟩ })
      else (some a.heapTop, { a with heapTop := a.heapTop + T.size }) := by
  have ho' := ho
  obtain ⟨h1, h2, h3⟩ := ho'
  have hr' : a.end_ < WORD := hr
  unfold PiggyBankArenaAllocObject
  rw [alloc_eq ho hr]
  by_cases h : a.cleanupActionsBottom - a.heapTop < T.size
  · simp [h]
  · simp only [h, if_false]
    cases flag
    · simp
    · have ho1 : Ordered L { a with heapTop := a.heapTop + T.size } := by
        refine ⟨?_, ?_, h3⟩
        · show a.start L ≤ a.heapTop + T.size
          omega
        · show a.heapTop + T.size ≤ a.cleanupActionsBottom
          omega
      have hr1 : InRange { a with heapTop := a.heapTop + T.size } := hr
      simp only [if_true]
      rw [scheduleCleanup_eq ho1 hr1]
      have hsimp : a.cleanupActionsBottom - (a.heapTop + T.size)
          = a.cleanupActionsBottom - a.heapTop - T.size := by omega
      simp only [hsimp]
      by_cases h' : a.cleanupActionsBottom - a.heapTop - T.size < L.slotSize
      · have hback : wsub (a.heapTop + T.size) T.size = a.heapTop := by
          rw [wsub_of_le (by omega) (by omega)]; omega
        simp [h', hback]
      · simp [h']

/-! ## Preservation of the ordering -/

/-- A call keeps `base` and `end`, and keeps the ordering. -/
theorem call_ordered {L : Layout} {a : PiggyBankArena} (ho : Ordered L a) (hr : InRange a)
    (c : ArenaCall) :
    (c.apply L a).2.base = a.base ∧ (c.apply L a).2.end_ = a.end_ ∧
      Ordered L (c.apply L a).2 := by
  have ho' := ho
  unfold Ordered PiggyBankArena.start at ho'
  obtain ⟨h1, h2, h3⟩ := ho'
  cases c with
  | alloc size =>
    simp only [ArenaCall.apply]
    rw [alloc_eq ho hr]
    split_ifs with h
    · exact ⟨rfl, rfl, ho⟩
    · refine ⟨rfl, rfl, ?_⟩
      unfold Ordered PiggyBankArena.start
      simp only
      omega
  | scheduleCleanup f x =>
    simp only [ArenaCall.apply]
    rw [scheduleCleanup_eq ho hr]
    split_ifs with h
    · exact ⟨rfl, rfl, ho⟩
    · refine ⟨rfl, rfl, ?_⟩
      unfold Ordered PiggyBankArena.start
      simp only
      omega
  | allocObject T flag =>
    simp only [ArenaCall.apply]
    rw [allocObject_eq ho hr]
    split_ifs with h hf h'
    · exact ⟨rfl, rfl, ho⟩
    · exact ⟨rfl, rfl, ho⟩
    · refine ⟨rfl, rfl, ?_⟩
      unfold Ordered PiggyBankArena.start
      simp only
      omega
    · refine ⟨rfl, rfl, ?_⟩
      unfold Ordered PiggyBankArena.start
      simp only
      omega

/-- A cleanup that returns keeps `base` and `end`, keeps the ordering, and
leaves `heapTop = start`, `cleanupActionsBottom = end`. -/
theorem cleanup_ordered {L : Layout} {a a' : PiggyBankArena} {fuel : Nat}
    {calls : List _PiggyBankArenaCleanupAction} (ho : Ordered L a)
    (h : PiggyBankArenaCleanup L fuel a = some (calls, a')) :
    a'.base = a.base ∧ a'.end_ = a.end_ ∧ a'.slots = a.slots ∧ a'.heapTop = a.start L ∧
      a'.cleanupActionsBottom = a.end_ ∧ Ordered L a' := by
  unfold PiggyBankArenaCleanup at h
  cases hl : cleanupLoop L a fuel a.cleanupActionsBottom with
  | none => simp [hl] at h
  | some tr =>
    simp only [hl, Option.some.injEq, Prod.mk.injEq] at h
    obtain ⟨_, rfl⟩ := h
    refine ⟨rfl, rfl, rfl, rfl, rfl, ?_⟩
    unfold Ordered PiggyBankArena.start at *
    simp only
    omega

/-- A successful initialisation on a block inside the address space gives an
ordered arena with `end = memory + size`. -/
theorem init_ordered {L : Layout} {slots : Nat → _PiggyBankArenaCleanupAction}
    {memory size : Nat} {a : PiggyBankArena} (hblock : memory + size < WORD)
    (h : PiggyBankArenaInit L slots memory size = some a) :
    a.base = memory ∧ a.end_ = memory + size ∧ a.heapTop = memory + L.headerSize ∧
      a.cleanupActionsBottom = memory + size ∧ Ordered L a := by
  unfold PiggyBankArenaInit at h
  by_cases hs : size ≤ L.headerSize
  · simp [hs] at h
  · simp only [hs, if_false, Option.some.injEq] at h
    subst h
    have h1 : wadd memory L.headerSize = memory + L.headerSize := wadd_of_lt (by omega)
    have h2 : wadd memory size = memory + size := wadd_of_lt hblock
    refine ⟨rfl, h2, h1, h2, ?_⟩
    unfold Ordered PiggyBankArena.start
    simp only [h1, h2]
    omega

/-- Every reachable state sits at `memory`, ends at `memory + size` and is ordered. -/
theorem reachable_ordered {L : Layout} {memory size : Nat} {a : PiggyBankArena}
    (hblock : memory + size < WORD) (h : Reachable L memory size a) :
    a.base = memory ∧ a.end_ = memory + size ∧ Ordered L a := by
  induction h with
  | init slots a hinit =>
    obtain ⟨h1, h2, _, _, h5⟩ := init_ordered hblock hinit
    exact ⟨h1, h2, h5⟩
  | call a c _ ih =>
    obtain ⟨hb, he, ho⟩ := ih
    have hr : InRange a := by unfold InRange; omega
    obtain ⟨h1, h2, h3⟩ := call_ordered ho hr c
    exact ⟨h1.trans hb, h2.trans he, h3⟩
  | cleanup a fuel calls a' _ hc ih =>
    obtain ⟨hb, he, ho⟩ := ih
    obtain ⟨h1, h2, _, _, _, h6⟩ := cleanup_ordered ho hc
    exact ⟨h1.trans hb, h2.trans he, h6⟩

/-- C9: the ordering `start ≤ heapTop ≤ cleanupActionsBottom ≤ end` holds after
every successful `PiggyBankArenaInit`, is kept by every call of `alloc`,
`scheduleCleanup` and `allocObject` (either flag, any size, success or failure)
and by every cleanup, and so holds in every reachable state. -/
theorem ordering_invariant (L : Layout) (memory size : Nat) (hblock : memory + size < WORD) :
    (∀ slots a, PiggyBankArenaInit L slots memory size = some a → Ordered L a) ∧
      (∀ a c, Ordered L a → InRange a →
        Ordered L (ArenaCall.apply L a c).2 ∧ InRange (ArenaCall.apply L a c).2) ∧
      (∀ a fuel calls a', Ordered L a → InRange a →
        PiggyBankArenaCleanup L fuel a = some (calls, a') → Ordered L a' ∧ InRange a') ∧
      (∀ a, Reachable L memory size a → Ordered L a ∧ InRange a) := by
  refine ⟨?_, ?_, ?_, ?_⟩
  · intro slots a h
    exact (init_ordered hblock h).2.2.2.2
  · intro a c ho hr
    obtain ⟨_, h2, h3⟩ := call_ordered ho hr c
    refine ⟨h3, ?_⟩
    unfold InRange at *
    omega
  · intro a fuel calls a' ho hr hc
    obtain ⟨_, h2, _, _, _, h6⟩ := cleanup_ordered ho hc
    refine ⟨h6, ?_⟩
    unfold InRange at *
    omega
  · intro a h
    obtain ⟨_, he, ho⟩ := reachable_ordered hblock h
    refine ⟨ho, ?_⟩
    unfold InRange
    omega

/-- Witness of C9: the block of 88 bytes at address 4096. -/
theorem ordering_invariant_witness :
    4096 + 88 < WORD ∧
      (Ordered lp64 (ArenaCall.apply lp64 sampleArena (.allocObject testStruct true)).2 ∧
        InRange (ArenaCall.apply lp64 sampleArena (.allocObject testStruct true)).2) :=
  ⟨by decide,
    (ordering_invariant lp64 4096 88 (by decide)).2.1 sampleArena
      (.allocObject testStruct true) (by decide) (by decide)⟩

/-! ## The cleanup loop -/

/-- Started `n` whole slots below `end`, the loop finishes within `n` iterations
and calls the content of these `n` slots in increasing address order. -/
theorem cleanupLoop_slotList {L : Layout} (a : PiggyBankArena) (hs : 0 < L.slotSize)
    (hr : InRange a) :
    ∀ (n fuel action : Nat), action + n * L.slotSize = a.end_ → n ≤ fuel →
      cleanupLoop L a fuel action = some (slotList L a.slots action n) := by
  intro n
  induction n with
  | zero =>
    intro fuel action hn _
    rw [cleanupLoop_of_ge L a fuel action (by omega)]
    rfl
  | succ n ih =>
    intro fuel action hn hfuel
    unfold InRange at hr
    have hstep : action + L.slotSize + n * L.slotSize = a.end_ := by
      rw [← hn, Nat.succ_mul]; omega
    have hlt : action < a.end_ := by omega
    have hw : wadd action L.slotSize = action + L.slotSize := by
      apply wadd_of_lt
      have : action + L.slotSize ≤ a.end_ := by
        rw [← hstep]; exact Nat.le_add_right _ _
      omega
    cases fuel with
    | zero => omega
    | succ fuel =>
      simp only [cleanupLoop, hlt, if_true, hw]
      rw [ih fuel (action + L.slotSize) hstep (by omega)]
      rfl

/-- Writing below address `q` does not change the slots read from `q` upwards. -/
theorem slotList_writeSlot {L : Layout} (slots : Nat → _PiggyBankArenaCleanupAction)
    (p : Nat) (v : _PiggyBankArenaCleanupAction) :
    ∀ (n q : Nat), p < q → slotList L (writeSlot slots p v) q n = slotList L slots q n := by
  intro n
  induction n with
  | zero => intro q _; rfl
  | succ n ih =>
    intro q hq
    have hne : q ≠ p := by omega
    simp only [slotList, writeSlot, hne, if_false]
    have := ih (q + L.slotSize) (by omega)
    simp only [writeSlot] at this
    rw [this]

theorem slotList_length {L : Layout} (slots : Nat → _PiggyBankArenaCleanupAction) :
    ∀ (n p : Nat), (slotList L slots p n).length = n := by
  intro n
  induction n with
  | zero => intro p; rfl
  | succ n ih => intro p; simp [slotList, ih]

/-- Effect of one call on the action stack: the pair registered by the call, if
any, is pushed below the slots that were there. -/
theorem call_slotList {L : Layout} {a : PiggyBankArena} (hs : 0 < L.slotSize)
    (ho : Ordered L a) (hr : InRange a) (c : ArenaCall) (k : Nat)
    (hk : a.cleanupActionsBottom + k * L.slotSize = a.end_) :
    ∃ k', (c.apply L a).2.cleanupActionsBottom + k' * L.slotSize = a.end_ ∧
      slotList L (c.apply L a).2.slots (c.apply L a).2.cleanupActionsBottom k' =
        (c.registered L a).toList ++ slotList L a.slots a.cleanupActionsBottom k := by
  have ho' := ho
  unfold Ordered PiggyBankArena.start at ho'
  obtain ⟨h1, h2, h3⟩ := ho'
  have hpush : ∀ v, a.cleanupActionsBottom - a.heapTop ≥ L.slotSize →
      (a.cleanupActionsBottom - L.slotSize + (k + 1) * L.slotSize = a.end_ ∧
      slotList L (writeSlot a.slots (a.cleanupActionsBottom - L.slotSize) v)
        (a.cleanupActionsBottom - L.slotSize) (k + 1) =
        v :: slotList L a.slots a.cleanupActionsBottom k) := by
    intro v hge
    refine ⟨?_, ?_⟩
    · rw [Nat.succ_mul]; omega
    · have hback : a.cleanupActionsBottom - L.slotSize + L.slotSize = a.cleanupActionsBottom := by
        omega
      simp only [slotList, hback]
      rw [slotList_writeSlot a.slots _ v k a.cleanupActionsBottom (by omega)]
      simp [writeSlot]
  cases c with
  | alloc size =>
    refine ⟨k, ?_, ?_⟩
    · simp only [ArenaCall.apply]
      rw [alloc_eq ho hr]
      split_ifs <;> exact hk
    · simp only [ArenaCall.apply, ArenaCall.registered]
      rw [alloc_eq ho hr]
      split_ifs <;> rfl
  | scheduleCleanup f x =>
    simp only [ArenaCall.apply, ArenaCall.registered]
    rw [scheduleCleanup_eq ho hr]
    split_ifs with h
    · exact ⟨k, hk, rfl⟩
    · exact ⟨k + 1, hpush ⟨f, x⟩ (by omega)⟩
  | allocObject T flag =>
    cases flag with
    | false =>
      refine ⟨k, ?_, ?_⟩
      · simp only [ArenaCall.apply]
        rw [allocObject_eq ho hr]
        split_ifs <;> first | exact hk | simp_all
      · simp only [ArenaCall.apply, ArenaCall.registered]
        rw [allocObject_eq ho hr]
        split_ifs <;> first | rfl | simp_all
    | true =>
      simp only [ArenaCall.apply, ArenaCall.registered]
      rw [allocObject_eq ho hr]
      split_ifs with h h' h''
      · exact ⟨k, hk, rfl⟩
      · exact ⟨k, hk, rfl⟩
      · exact ⟨k + 1, hpush ⟨T.destroyObject, a.heapTop⟩ (by omega)⟩
      · simp at h'

/-- After a sequence of calls the action stack holds, from the bottom up, the
registered pairs in reverse registration order, followed by what it held before. -/
theorem runCalls_slotList {L : Layout} (hs : 0 < L.slotSize) (calls : List ArenaCall) :
    ∀ (a : PiggyBankArena) (k : Nat), Ordered L a → InRange a →
      a.cleanupActionsBottom + k * L.slotSize = a.end_ →
      (runCalls L calls a).end_ = a.end_ ∧ Ordered L (runCalls L calls a) ∧
      ∃ k', (runCalls L calls a).cleanupActionsBottom + k' * L.slotSize = a.end_ ∧
        slotList L (runCalls L calls a).slots (runCalls L calls a).cleanupActionsBottom k' =
          (registeredBy L calls a).reverse ++ slotList L a.slots a.cleanupActionsBottom k := by
  induction calls with
  | nil =>
    intro a k ho _ hk
    exact ⟨rfl, ho, k, hk, by simp [runCalls, registeredBy]⟩
  | cons c cs ih =>
    intro a k ho hr hk
    obtain ⟨_, he, ho1⟩ := call_ordered ho hr c
    have hr1 : InRange (c.apply L a).2 := by
      unfold InRange at *; omega
    obtain ⟨k1, hk1, hl1⟩ := call_slotList hs ho hr c k hk
    obtain ⟨he2, ho2, k2, hk2, hl2⟩ := ih (c.apply L a).2 k1 ho1 hr1 (by omega)
    refine ⟨by simp only [runCalls]; omega, ho2, k2, by simp only [runCalls]; omega, ?_⟩
    simp only [runCalls, registeredBy, List.reverse_append]
    rw [hl2, hl1, List.append_assoc]
    congr 2
    cases c.registered L a <;> simp

/-! ## Cleanup -/

/-- The cleanup returns what its loop returns, together with the reset arena. -/
theorem cleanup_of_loop {L : Layout} {a : PiggyBankArena} {fuel : Nat}
    {tr : List _PiggyBankArenaCleanupAction}
    (h : cleanupLoop L a fuel a.cleanupActionsBottom = some tr) :
    PiggyBankArenaCleanup L fuel a =
      some (tr, { a with heapTop := a.start L, cleanupActionsBottom := a.end_ }) := by
  unfold PiggyBankArenaCleanup
  rw [h]

/-- C7: after any sequence of `alloc` / `scheduleCleanup` / `allocObject` calls on
an arena with an empty action stack (`cleanupActionsBottom = end`, as after
`PiggyBankArenaInit` or after a cleanup), `PiggyBankArenaCleanup` returns, given
one unit of fuel per registered action, and calls exactly the pairs whose
registration succeeded, each once, most recently registered first. -/
theorem cleanup_calls_registered_reversed (L : Layout) (a0 : PiggyBankArena)
    (calls : List ArenaCall) (fuel : Nat) (hs : 0 < L.slotSize) (ho : Ordered L a0)
    (hr : InRange a0) (hempty : a0.cleanupActionsBottom = a0.end_)
    (hfuel : (registeredBy L calls a0).length ≤ fuel) :
    ∃ a', PiggyBankArenaCleanup L fuel (runCalls L calls a0) =
      some ((registeredBy L calls a0).reverse, a') := by
  obtain ⟨he, _, k, hk, hl⟩ := runCalls_slotList hs calls a0 0 ho hr (by omega)
  have hr' : InRange (runCalls L calls a0) := by
    unfold InRange at *; omega
  have hlist : slotList L (runCalls L calls a0).slots
      (runCalls L calls a0).cleanupActionsBottom k = (registeredBy L calls a0).reverse := by
    rw [hl]; simp [slotList]
  have hlen : k = (registeredBy L calls a0).length := by
    have := congrArg List.length hlist
    rw [slotList_length, List.length_reverse] at this
    exact this
  have hloop := cleanupLoop_slotList (runCalls L calls a0) hs hr' k fuel
    (runCalls L calls a0).cleanupActionsBottom (by omega) (by omega)
  rw [hlist] at hloop
  exact ⟨_, cleanup_of_loop hloop⟩

/-- Witness of C7: `sampleCalls` on the freshly initialised `freshArena`. -/
theorem cleanup_calls_registered_reversed_witness :
    (PiggyBankArenaInit lp64 zeroSlots 4096 88 = some freshArena ∧ 0 < lp64.slotSize ∧
        Ordered lp64 freshArena ∧ InRange freshArena ∧
        freshArena.cleanupActionsBottom = freshArena.end_ ∧
        (registeredBy lp64 sampleCalls freshArena).length ≤ 3) ∧
      ∃ a', PiggyBankArenaCleanup lp64 3 (runCalls lp64 sampleCalls freshArena) =
        some ([⟨2, 20⟩, ⟨testStruct.destroyObject, 4128⟩, ⟨1, 10⟩], a') :=
  ⟨⟨rfl, by decide, by decide, by decide, by decide, by decide⟩,
    cleanup_calls_registered_reversed lp64 freshArena sampleCalls 3 (by decide) (by decide)
      (by decide) (by decide) (by decide)⟩

/-- Every reachable state sits at `memory`, ends at `memory + size`, is ordered
and holds whole slots only. -/
theorem reachable_inv {L : Layout} {memory size : Nat} {a : PiggyBankArena}
    (hs : 0 < L.slotSize) (hblock : memory + size < WORD) (h : Reachable L memory size a) :
    L.headerSize < size ∧ a.base = memory ∧ a.end_ = memory + size ∧ Ordered L a ∧
      ∃ k, a.cleanupActionsBottom + k * L.slotSize = a.end_ := by
  induction h with
  | init slots a hinit =>
    obtain ⟨h1, h2, _, h4, h5⟩ := init_ordered hblock hinit
    refine ⟨?_, h1, h2, h5, 0, by omega⟩
    unfold PiggyBankArenaInit at hinit
    by_cases hsz : size ≤ L.headerSize
    · simp [hsz] at hinit
    · omega
  | call a c _ ih =>
    obtain ⟨hsz, hb, he, ho, k, hk⟩ := ih
    have hr : InRange a := by unfold InRange; omega
    obtain ⟨h1, h2, h3⟩ := call_ordered ho hr c
    obtain ⟨k', hk', _⟩ := call_slotList hs ho hr c k hk
    exact ⟨hsz, h1.trans hb, h2.trans he, h3, k', by omega⟩
  | cleanup a fuel calls a' _ hc ih =>
    obtain ⟨hsz, hb, he, ho, _⟩ := ih
    obtain ⟨h1, h2, _, _, h5, h6⟩ := cleanup_ordered ho hc
    exact ⟨hsz, h1.trans hb, h2.trans he, h6, 0, by omega⟩

/-- C8: in every state reachable from a successful `PiggyBankArenaInit(memory,
size)`, `PiggyBankArenaCleanup` returns (given one unit of fuel per slot of the
action stack) and leaves `heapTop = start = memory + headerSize` and
`cleanupActionsBottom = end = memory + size`, the values these fields have right
after the initialisation. -/
theorem cleanup_resets (L : Layout) (memory size : Nat) (a : PiggyBankArena) (fuel : Nat)
    (hs : 0 < L.slotSize) (hblock : memory + size < WORD)
    (h : Reachable L memory size a)
    (hfuel : (a.end_ - a.cleanupActionsBottom) / L.slotSize ≤ fuel) :
    ∃ calls a', PiggyBankArenaCleanup L fuel a = some (calls, a') ∧
      a'.heapTop = memory + L.headerSize ∧ a'.start L = memory + L.headerSize ∧
      a'.cleanupActionsBottom = memory + size ∧ a'.end_ = memory + size ∧
      ∀ slots0 a0, PiggyBankArenaInit L slots0 memory size = some a0 →
        a'.end_ = a0.end_ ∧ a'.heapTop = a0.heapTop ∧
        a'.cleanupActionsBottom = a0.cleanupActionsBottom := by
  obtain ⟨hsz, hb, he, ho, k, hk⟩ := reachable_inv hs hblock h
  have hr : InRange a := by unfold InRange; omega
  have hkdiv : (a.end_ - a.cleanupActionsBottom) / L.slotSize = k := by
    have : a.end_ - a.cleanupActionsBottom = k * L.slotSize := by omega
    rw [this, Nat.mul_div_cancel _ hs]
  have hloop := cleanupLoop_slotList a hs hr k fuel a.cleanupActionsBottom hk (by omega)
  have hstart : a.start L = memory + L.headerSize := by
    unfold PiggyBankArena.start
    rw [hb]
    exact wadd_of_lt (by omega)
  refine ⟨_, _, cleanup_of_loop hloop, hstart, hstart, he, he, ?_⟩
  intro slots0 a0 h0
  obtain ⟨_, h2, h3, h4, _⟩ := init_ordered hblock h0
  exact ⟨he.trans h2.symm, hstart.trans h3.symm, he.trans h4.symm⟩

/-- Witness of C8: `freshArena` after `sampleCalls`. -/
theorem cleanup_resets_witness :
    (0 < lp64.slotSize ∧ 4096 + 88 < WORD ∧
        ((runCalls lp64 sampleCalls freshArena).end_ -
          (runCalls lp64 sampleCalls freshArena).cleanupActionsBottom) / lp64.slotSize ≤ 3) ∧
      ∃ calls a', PiggyBankArenaCleanup lp64 3 (runCalls lp64 sampleCalls freshArena) =
          some (calls, a') ∧
        a'.heapTop = 4096 + lp64.headerSize ∧ a'.start lp64 = 4096 + lp64.headerSize ∧
        a'.cleanupActionsBottom = 4096 + 88 ∧ a'.end_ = 4096 + 88 ∧
        ∀ slots0 a0, PiggyBankArenaInit lp64 slots0 4096 88 = some a0 →
          a'.end_ = a0.end_ ∧ a'.heapTop = a0.heapTop ∧
          a'.cleanupActionsBottom = a0.cleanupActionsBottom :=
  ⟨⟨by decide, by decide, by decide⟩,
    cleanup_resets lp64 4096 88 (runCalls lp64 sampleCalls freshArena) 3 (by decide)
      (by decide)
      (Reachable.call _ (.scheduleCleanup 3 30) (Reachable.call _ (.scheduleCleanup 2 20)
        (Reachable.call _ (.allocObject testStruct true) (Reachable.call _ (.alloc 8)
          (Reachable.call _ (.scheduleCleanup 1 10)
            (Reachable.init zeroSlots freshArena rfl))))))
      (by decide)⟩

/-! ## Typed allocation -/

/-- C10: in a reachable state whose remaining space holds a `T` but not a `T`
and a slot, `PiggyBankArenaAllocObject<T>(arena, true)` returns `NULL` and leaves
the arena exactly as it was: `heapTop` is rolled back, nothing is registered,
and a later cleanup behaves as if the call had not been made. -/
theorem allocObject_rollback (L : Layout) (memory size : Nat) (a : PiggyBankArena)
    (T : ObjType) (hblock : memory + size < WORD) (h : Reachable L memory size a)
    (hlo : T.size ≤ a.cleanupActionsBottom - a.heapTop)
    (hhi : a.cleanupActionsBottom - a.heapTop < T.size + L.slotSize) :
    PiggyBankArenaAllocObject L T a true = (none, a) ∧
      (PiggyBankArenaAlloc a T.size).2.heapTop = a.heapTop + T.size ∧
      (PiggyBankArenaAllocObject L T a true).2.heapTop = a.heapTop ∧
      (PiggyBankArenaAllocObject L T a true).2.cleanupActionsBottom = a.cleanupActionsBottom ∧
      (PiggyBankArenaAllocObject L T a true).2.end_ = a.end_ ∧
      (PiggyBankArenaAllocObject L T a true).2.slots = a.slots ∧
      ArenaCall.registered L a (.allocObject T true) = none ∧
      ∀ fuel, PiggyBankArenaCleanup L fuel (PiggyBankArenaAllocObject L T a true).2 =
        PiggyBankArenaCleanup L fuel a := by
  obtain ⟨_, he, ho⟩ := reachable_ordered hblock h
  have hr : InRange a := by unfold InRange; omega
  have hno : ¬ a.cleanupActionsBottom - a.heapTop < T.size := by omega
  have hyes : a.cleanupActionsBottom - a.heapTop - T.size < L.slotSize := by omega
  have hmain : PiggyBankArenaAllocObject L T a true = (none, a) := by
    rw [allocObject_eq ho hr]
    simp [hno, hyes]
  have halloc : (PiggyBankArenaAlloc a T.size).2.heapTop = a.heapTop + T.size := by
    rw [alloc_eq ho hr]
    simp [hno]
  refine ⟨hmain, halloc, ?_, ?_, ?_, ?_, ?_, ?_⟩
  · rw [hmain]
  · rw [hmain]
  · rw [hmain]
  · rw [hmain]
  · simp only [ArenaCall.registered]
    rw [hmain]
  · intro fuel
    rw [hmain]

/-- Witness of C10: the second typed allocation of the test on `smallArena`. -/
theorem allocObject_rollback_witness :
    (4096 + 56 < WORD ∧
        testStruct.size ≤
          (PiggyBankArenaAllocObject lp64 testStruct smallArena true).2.cleanupActionsBottom -
            (PiggyBankArenaAllocObject lp64 testStruct smallArena true).2.heapTop ∧
        (PiggyBankArenaAllocObject lp64 testStruct smallArena true).2.cleanupActionsBottom -
            (PiggyBankArenaAllocObject lp64 testStruct smallArena true).2.heapTop <
          testStruct.size + lp64.slotSize) ∧
      PiggyBankArenaAllocObject lp64 testStruct
          (PiggyBankArenaAllocObject lp64 testStruct smallArena true).2 true =
        (none, (PiggyBankArenaAllocObject lp64 testStruct smallArena true).2) :=
  ⟨⟨by decide, by decide, by decide⟩,
    (allocObject_rollback lp64 4096 56
      (PiggyBankArenaAllocObject lp64 testStruct smallArena true).2 testStruct (by decide)
      (Reachable.call smallArena (.allocObject testStruct true)
        (Reachable.init zeroSlots smallArena rfl))
      (by decide) (by decide)).1⟩

/-! ## Typed allocation, both flags -/

/-- The loop of the cleanup depends on the arena only through `end` and the slots. -/
theorem cleanupLoop_congr {L : Layout} {a b : PiggyBankArena} (he : b.end_ = a.end_)
    (hsl : b.slots = a.slots) :
    ∀ (fuel action : Nat), cleanupLoop L b fuel action = cleanupLoop L a fuel action := by
  intro fuel
  induction fuel with
  | zero => intro action; simp [cleanupLoop, he]
  | succ fuel ih => intro action; simp [cleanupLoop, he, hsl, ih]

/-- C11: `PiggyBankArenaAllocObject<T>(arena, false)` returns what
`PiggyBankArenaAlloc(arena, sizeof(T))` returns and leaves the same arena; it does
not move `cleanupActionsBottom`, writes no slot and registers nothing, so the
loop of a following cleanup makes exactly the calls it would have made before. -/
theorem allocObject_without_destructor (L : Layout) (T : ObjType) (a : PiggyBankArena) :
    PiggyBankArenaAllocObject L T a false = PiggyBankArenaAlloc a T.size ∧
      (PiggyBankArenaAllocObject L T a false).2.cleanupActionsBottom
        = a.cleanupActionsBottom ∧
      (PiggyBankArenaAllocObject L T a false).2.slots = a.slots ∧
      (PiggyBankArenaAllocObject L T a false).2.end_ = a.end_ ∧
      ArenaCall.registered L a (.allocObject T false) = none ∧
      ∀ fuel, cleanupLoop L (PiggyBankArenaAllocObject L T a false).2 fuel
          (PiggyBankArenaAllocObject L T a false).2.cleanupActionsBottom
        = cleanupLoop L a fuel a.cleanupActionsBottom := by
  have hmain : PiggyBankArenaAllocObject L T a false = PiggyBankArenaAlloc a T.size := by
    unfold PiggyBankArenaAllocObject
    cases h : PiggyBankArenaAlloc a T.size with
    | mk r a1 => cases r <;> simp
  have hcab : (PiggyBankArenaAlloc a T.size).2.cleanupActionsBottom = a.cleanupActionsBottom := by
    unfold PiggyBankArenaAlloc
    simp only
    split_ifs <;> rfl
  have hslots : (PiggyBankArenaAlloc a T.size).2.slots = a.slots := by
    unfold PiggyBankArenaAlloc
    simp only
    split_ifs <;> rfl
  have hend : (PiggyBankArenaAlloc a T.size).2.end_ = a.end_ := by
    unfold PiggyBankArenaAlloc
    simp only
    split_ifs <;> rfl
  rw [hmain]
  refine ⟨rfl, hcab, hslots, hend, rfl, ?_⟩
  intro fuel
  rw [hcab]
  exact cleanupLoop_congr hend hslots fuel _

/-- C19: in a reachable state `PiggyBankArenaAllocObject<T>(arena, true)` succeeds
exactly when the remaining space is at least `sizeof(T)` plus one slot; it then
returns the old `heapTop`, moves `heapTop` up by `sizeof(T)`, moves
`cleanupActionsBottom` down by one slot and stores the destructor wrapper of `T`
with the returned address in the new bottom slot, changing no other slot. -/
theorem allocObject_with_destructor (L : Layout) (memory size : Nat) (a : PiggyBankArena)
    (T : ObjType) (hblock : memory + size < WORD) (h : Reachable L memory size a) :
    ((PiggyBankArenaAllocObject L T a true).1.isSome = true ↔
        T.size + L.slotSize ≤ PiggyBankArenaRemainingSpace a) ∧
      (T.size + L.slotSize ≤ PiggyBankArenaRemainingSpace a →
        (PiggyBankArenaAllocObject L T a true).1 = some a.heapTop ∧
        (PiggyBankArenaAllocObject L T a true).2.heapTop = a.heapTop + T.size ∧
        (PiggyBankArenaAllocObject L T a true).2.cleanupActionsBottom
          = a.cleanupActionsBottom - L.slotSize ∧
        (PiggyBankArenaAllocObject L T a true).2.slots (a.cleanupActionsBottom - L.slotSize)
          = ⟨T.destroyObject, a.heapTop⟩ ∧
        (PiggyBankArenaAllocObject L T a true).2.end_ = a.end_ ∧
        ∀ q, q ≠ a.cleanupActionsBottom - L.slotSize →
          (PiggyBankArenaAllocObject L T a true).2.slots q = a.slots q) := by
  obtain ⟨_, he, ho⟩ := reachable_ordered hblock h
  have hr : InRange a := by unfold InRange; omega
  have hrem : PiggyBankArenaRemainingSpace a = a.cleanupActionsBottom - a.heapTop :=
    remaining_of_ordered ho hr
  rw [hrem, allocObject_eq ho hr]
  refine ⟨?_, ?_⟩
  · split_ifs with h1 h2 h3
    · simp; omega
    · simp; omega
    · simp; omega
    · simp at h2
  · intro hfit
    have h1 : ¬ a.cleanupActionsBottom - a.heapTop < T.size := by omega
    have h3 : ¬ a.cleanupActionsBottom - a.heapTop - T.size < L.slotSize := by omega
    simp only [h1, h3, if_false, if_true, writeSlot, true_and]
    intro q hq
    simp [hq]

/-! ## Effect of one call on the two stacks -/

/-- What one call does to an ordered arena: `heapTop` moves up by the number of
bytes handed out, `cleanupActionsBottom` moves down by one slot per registered
action, the bytes handed out start at the old `heapTop`, and no slot below the new
bottom is written. -/
theorem call_effect {L : Layout} {a : PiggyBankArena} (ho : Ordered L a) (hr : InRange a)
    (c : ArenaCall) :
    (c.apply L a).2.heapTop = a.heapTop + c.allocated L a ∧
      (c.apply L a).2.cleanupActionsBottom + L.slotSize * (c.registered L a).toList.length
        = a.cleanupActionsBottom ∧
      (∀ p s, c.allocation L a = some (p, s) → p = a.heapTop) ∧
      (∀ q, q < (c.apply L a).2.cleanupActionsBottom → (c.apply L a).2.slots q = a.slots q) := by
  have ho' := ho
  unfold Ordered PiggyBankArena.start at ho'
  obtain ⟨h1, h2, h3⟩ := ho'
  cases c with
  | alloc size =>
    simp only [ArenaCall.apply, ArenaCall.allocated, ArenaCall.allocation,
      ArenaCall.registered]
    rw [alloc_eq ho hr]
    split_ifs with h <;> simp
  | scheduleCleanup f x =>
    simp only [ArenaCall.apply, ArenaCall.allocated, ArenaCall.allocation,
      ArenaCall.registered]
    rw [scheduleCleanup_eq ho hr]
    split_ifs with h
    · simp
    · simp only [Option.toList, List.length_singleton, writeSlot]
      refine ⟨by omega, by omega, by simp, ?_⟩
      intro q hq
      have : q ≠ a.cleanupActionsBottom - L.slotSize := by omega
      simp [this]
  | allocObject T flag =>
    cases flag with
    | false =>
      simp only [ArenaCall.apply, ArenaCall.allocated, ArenaCall.allocation,
        ArenaCall.registered]
      rw [allocObject_eq ho hr]
      simp only [Bool.false_eq_true, if_false]
      split_ifs with h <;> simp
    | true =>
      simp only [ArenaCall.apply, ArenaCall.allocated, ArenaCall.allocation,
        ArenaCall.registered]
      rw [allocObject_eq ho hr]
      simp only [if_true]
      split_ifs with h h'
      · simp
      · simp
      · simp only [Option.toList, List.length_singleton, writeSlot]
        refine ⟨trivial, by omega, by simp, ?_⟩
        intro q hq
        have : q ≠ a.cleanupActionsBottom - L.slotSize := by omega
        simp [this]

/-- What a sequence of calls does to an ordered arena: the ordering is kept,
`heapTop` never moves down and `cleanupActionsBottom` never moves up, no slot
below the final bottom is written, every block handed out lies between the
initial and the final `heapTop`, and each block ends before the next one starts. -/
theorem runCalls_effect {L : Layout} (cs : List ArenaCall) :
    ∀ (a : PiggyBankArena), Ordered L a → InRange a →
      Ordered L (runCalls L cs a) ∧ (runCalls L cs a).end_ = a.end_ ∧
      (runCalls L cs a).base = a.base ∧ a.heapTop ≤ (runCalls L cs a).heapTop ∧
      (runCalls L cs a).cleanupActionsBottom ≤ a.cleanupActionsBottom ∧
      (∀ q, q < (runCalls L cs a).cleanupActionsBottom → (runCalls L cs a).slots q = a.slots q) ∧
      (∀ x ∈ allocationsBy L cs a, a.heapTop ≤ x.1 ∧ x.1 + x.2 ≤ (runCalls L cs a).heapTop) ∧
      List.Pairwise (fun x y => x.1 + x.2 ≤ y.1) (allocationsBy L cs a) := by
  induction cs with
  | nil =>
    intro a ho _
    exact ⟨ho, rfl, rfl, Nat.le_refl _, Nat.le_refl _, fun _ _ => rfl,
      by simp [allocationsBy], by simp [allocationsBy]⟩
  | cons c cs ih =>
    intro a ho hr
    obtain ⟨hb1, he1, ho1⟩ := call_ordered ho hr c
    have hr1 : InRange (c.apply L a).2 := by
      unfold InRange at *; omega
    obtain ⟨hh, hc, hp, hsl⟩ := call_effect ho hr c
    obtain ⟨ho2, he2, hb2, hh2, hc2, hsl2, hmem2, hpw2⟩ := ih (c.apply L a).2 ho1 hr1
    have hhead : ∀ x, c.allocation L a = some x →
        x.1 = a.heapTop ∧ (c.apply L a).2.heapTop = a.heapTop + x.2 := by
      intro x hx
      refine ⟨hp x.1 x.2 hx, ?_⟩
      rw [hh]
      unfold ArenaCall.allocated
      rw [hx]
    simp only [runCalls, allocationsBy]
    refine ⟨ho2, by omega, by omega, by omega, by omega, ?_, ?_, ?_⟩
    · intro q hq
      rw [hsl2 q hq]
      exact hsl q (by omega)
    · intro x hx
      rcases List.mem_append.mp hx with hx | hx
      · cases hopt : c.allocation L a with
        | none => simp [hopt] at hx
        | some y =>
          simp only [hopt, Option.toList, List.mem_singleton] at hx
          subst hx
          obtain ⟨e1, e2⟩ := hhead x hopt
          omega
      · have := hmem2 x hx
        omega
    · rw [List.pairwise_append]
      refine ⟨?_, hpw2, ?_⟩
      · cases c.allocation L a <;> simp
      · intro x hx y hy
        cases hopt : c.allocation L a with
        | none => simp [hopt] at hx
        | some z =>
          simp only [hopt, Option.toList, List.mem_singleton] at hx
          subst hx
          obtain ⟨e1, e2⟩ := hhead x hopt
          have := hmem2 y hy
          omega

/-! ## Blocks handed out -/

/-- C16: in a sequence of `alloc` / `scheduleCleanup` / `allocObject` calls on an
ordered arena (no cleanup in between), each block handed out by a successful
`alloc` or `allocObject` ends at or before the start of every block handed out
later, so any two of them have no byte in common; this includes the blocks
handed out after a rolled-back `allocObject`. -/
theorem allocations_disjoint (L : Layout) (a : PiggyBankArena) (calls : List ArenaCall)
    (ho : Ordered L a) (hr : InRange a) :
    List.Pairwise
      (fun x y => x.1 + x.2 ≤ y.1 ∧
        ∀ q, ¬ ((x.1 ≤ q ∧ q < x.1 + x.2) ∧ (y.1 ≤ q ∧ q < y.1 + y.2)))
      (allocationsBy L calls a) := by
  have h := (runCalls_effect calls a ho hr).2.2.2.2.2.2.2
  refine h.imp ?_
  intro x y hxy
  refine ⟨hxy, ?_⟩
  intro q hq
  omega

/-- C15: when `PiggyBankArenaAlloc(arena, size)` returns `p` in a reachable state,
the block `[p, p + size)` lies in `[start, heapTop)` right after the call, and
after any further sequence of `alloc` / `scheduleCleanup` / `allocObject` calls
it still lies in `[start, heapTop)`, below `cleanupActionsBottom` (so apart from
`[cleanupActionsBottom, end)`); no slot below `cleanupActionsBottom`, in
particular none that starts inside the block, has been written. -/
theorem allocation_stays_valid (L : Layout) (memory size : Nat) (a : PiggyBankArena)
    (sz p : Nat) (calls : List ArenaCall) (hblock : memory + size < WORD)
    (h : Reachable L memory size a) (hp : (PiggyBankArenaAlloc a sz).1 = some p) :
    ((PiggyBankArenaAlloc a sz).2.start L ≤ p ∧ p + sz ≤ (PiggyBankArenaAlloc a sz).2.heapTop) ∧
      ((runCalls L calls (PiggyBankArenaAlloc a sz).2).start L ≤ p ∧
        p + sz ≤ (runCalls L calls (PiggyBankArenaAlloc a sz).2).heapTop) ∧
      ((runCalls L calls (PiggyBankArenaAlloc a sz).2).heapTop
          ≤ (runCalls L calls (PiggyBankArenaAlloc a sz).2).cleanupActionsBottom ∧
        (runCalls L calls (PiggyBankArenaAlloc a sz).2).cleanupActionsBottom
          ≤ (runCalls L calls (PiggyBankArenaAlloc a sz).2).end_) ∧
      (∀ q, q < (runCalls L calls (PiggyBankArenaAlloc a sz).2).cleanupActionsBottom →
        (runCalls L calls (PiggyBankArenaAlloc a sz).2).slots q = a.slots q) ∧
      (∀ q, q < p + sz →
        (runCalls L calls (PiggyBankArenaAlloc a sz).2).slots q = a.slots q) := by
  obtain ⟨_, he, ho⟩ := reachable_ordered hblock h
  have hr : InRange a := by unfold InRange; omega
  obtain ⟨_, he1, ho1⟩ := call_ordered ho hr (.alloc sz)
  simp only [ArenaCall.apply] at he1 ho1
  have hr1 : InRange (PiggyBankArenaAlloc a sz).2 := by
    unfold InRange at *; omega
  obtain ⟨ho2, _, hb2, hh2, _, hsl2, _, _⟩ :=
    runCalls_effect calls (PiggyBankArenaAlloc a sz).2 ho1 hr1
  have hstart : (runCalls L calls (PiggyBankArenaAlloc a sz).2).start L
      = (PiggyBankArenaAlloc a sz).2.start L := by
    unfold PiggyBankArena.start
    rw [hb2]
  have hfacts : (PiggyBankArenaAlloc a sz).2.start L ≤ p ∧
      p + sz = (PiggyBankArenaAlloc a sz).2.heapTop ∧
      (PiggyBankArenaAlloc a sz).2.slots = a.slots := by
    have ho' := ho
    unfold Ordered at ho'
    rw [alloc_eq ho hr] at hp ⊢
    split_ifs at hp ⊢ with hlt
    simp only [Option.some.injEq] at hp
    subst hp
    exact ⟨ho'.1, rfl, rfl⟩
  obtain ⟨f1, f2, f3⟩ := hfacts
  have ho2' := ho2
  unfold Ordered at ho2'
  obtain ⟨_, o2, o3⟩ := ho2'
  refine ⟨⟨f1, by omega⟩, ⟨by rw [hstart]; exact f1, by omega⟩, ⟨o2, o3⟩, ?_, ?_⟩
  · intro q hq
    rw [hsl2 q hq, f3]
  · intro q hq
    rw [hsl2 q (by omega), f3]

/-! ## Sequences of allocations and of registrations -/

/-- Raw allocations that fit all succeed, one after the other from `heapTop` upwards. -/
theorem allocs_sequence {L : Layout} (sizes : List Nat) :
    ∀ (a : PiggyBankArena), Ordered L a → InRange a →
      sizes.sum ≤ a.cleanupActionsBottom - a.heapTop →
      (∀ i, i < sizes.length →
        (callResults L (sizes.map ArenaCall.alloc) a)[i]?
          = some (some (a.heapTop + (sizes.take i).sum))) ∧
      (runCalls L (sizes.map ArenaCall.alloc) a).heapTop = a.heapTop + sizes.sum ∧
      (runCalls L (sizes.map ArenaCall.alloc) a).cleanupActionsBottom
        = a.cleanupActionsBottom ∧
      (runCalls L (sizes.map ArenaCall.alloc) a).end_ = a.end_ ∧
      (runCalls L (sizes.map ArenaCall.alloc) a).base = a.base := by
  induction sizes with
  | nil =>
    intro a _ _ _
    exact ⟨fun i hi => by simp at hi, by simp [runCalls], rfl, rfl, rfl⟩
  | cons s ss ih =>
    intro a ho hr hsum
    simp only [List.sum_cons] at hsum
    have hfit : ¬ a.cleanupActionsBottom - a.heapTop < s := by omega
    have hstep : PiggyBankArenaAlloc a s = (some a.heapTop, { a with heapTop := a.heapTop + s }) := by
      rw [alloc_eq ho hr]
      simp [hfit]
    obtain ⟨_, _, ho1⟩ := call_ordered ho hr (.alloc s)
    simp only [ArenaCall.apply, hstep] at ho1
    have hr1 : InRange { a with heapTop := a.heapTop + s } := hr
    obtain ⟨i1, i2, i3, i4, i5⟩ := ih { a with heapTop := a.heapTop + s } ho1 hr1
      (by show ss.sum ≤ a.cleanupActionsBottom - (a.heapTop + s); omega)
    dsimp only at i1 i2 i3 i4 i5
    simp only [List.map_cons, callResults, runCalls, ArenaCall.apply, hstep, List.sum_cons]
    refine ⟨?_, by rw [i2]; omega, i3, i4, i5⟩
    intro i hi
    cases i with
    | zero => simp
    | succ i =>
      simp only [List.length_cons, Nat.add_lt_add_iff_right] at hi
      simp only [List.getElem?_cons_succ, List.take_succ_cons, List.sum_cons]
      rw [i1 i hi]
      simp only [Option.some.injEq]
      omega

/-- C13: on a freshly initialised arena with capacity `size - headerSize`, raw
allocations of sizes `s1 .. sn` with `s1 + ... + sn` at most the capacity all
succeed, the `i`-th one returning `start + (s1 + ... + s(i-1))`; a further
allocation of more than the capacity left returns `NULL` and leaves `heapTop` at
`start + (s1 + ... + sn)`. -/
theorem sequential_allocs (L : Layout) (slots : Nat → _PiggyBankArenaCleanupAction)
    (memory size : Nat) (a0 : PiggyBankArena) (sizes : List Nat)
    (hblock : memory + size < WORD) (h0 : PiggyBankArenaInit L slots memory size = some a0)
    (hsum : sizes.sum ≤ size - L.headerSize) :
    a0.start L = memory + L.headerSize ∧
      (∀ i, i < sizes.length →
        (callResults L (sizes.map ArenaCall.alloc) a0)[i]?
          = some (some (a0.start L + (sizes.take i).sum))) ∧
      (runCalls L (sizes.map ArenaCall.alloc) a0).heapTop = a0.start L + sizes.sum ∧
      ∀ extra, size - L.headerSize - sizes.sum < extra →
        (PiggyBankArenaAlloc (runCalls L (sizes.map ArenaCall.alloc) a0) extra).1 = none ∧
        (PiggyBankArenaAlloc (runCalls L (sizes.map ArenaCall.alloc) a0) extra).2.heapTop
          = a0.start L + sizes.sum := by
  obtain ⟨hb, he, hh, hc, ho⟩ := init_ordered hblock h0
  have hr : InRange a0 := by unfold InRange; omega
  have hsz : L.headerSize < size := by
    unfold PiggyBankArenaInit at h0
    by_cases hle : size ≤ L.headerSize
    · simp [hle] at h0
    · omega
  have hstart : a0.start L = memory + L.headerSize := by
    unfold PiggyBankArena.start
    rw [hb]
    exact wadd_of_lt (by omega)
  obtain ⟨i1, i2, i3, i4, i5⟩ := allocs_sequence sizes a0 ho hr (by omega)
  obtain ⟨ho2, _⟩ := runCalls_effect (sizes.map ArenaCall.alloc) a0 ho hr
  have hr2 : InRange (runCalls L (sizes.map ArenaCall.alloc) a0) := by
    unfold InRange at *; omega
  refine ⟨hstart, ?_, by rw [i2, hstart, hh], ?_⟩
  · intro i hi
    rw [i1 i hi, hstart, hh]
  · intro extra hextra
    rw [alloc_eq ho2 hr2]
    have hlt : (runCalls L (sizes.map ArenaCall.alloc) a0).cleanupActionsBottom
        - (runCalls L (sizes.map ArenaCall.alloc) a0).heapTop < extra := by
      rw [i2, i3]; omega
    simp only [hlt, if_true, true_and]
    rw [i2, hstart, hh]

/-- Registrations that fit all succeed, one slot after the other from
`cleanupActionsBottom` downwards. -/
theorem registrations_sequence {L : Layout} (regs : List (Nat × Nat)) :
    ∀ (a : PiggyBankArena), Ordered L a → InRange a →
      regs.length * L.slotSize ≤ a.cleanupActionsBottom - a.heapTop →
      (∀ i, i < regs.length →
        (callResults L (scheduleCalls regs) a)[i]?
          = some (some (a.cleanupActionsBottom - (i + 1) * L.slotSize))) ∧
      (runCalls L (scheduleCalls regs) a).cleanupActionsBottom
        = a.cleanupActionsBottom - regs.length * L.slotSize ∧
      (runCalls L (scheduleCalls regs) a).heapTop
        = a.heapTop := by
  induction regs with
  | nil =>
    intro a _ _ _
    exact ⟨fun i hi => by simp at hi, by simp [runCalls, scheduleCalls], rfl⟩
  | cons r rs ih =>
    intro a ho hr hfit
    simp only [List.length_cons, Nat.succ_mul] at hfit
    have hnot : ¬ a.cleanupActionsBottom - a.heapTop < L.slotSize := by omega
    have hstep : PiggyBankArenaScheduleCleanup L a r.1 r.2 =
        (some (a.cleanupActionsBottom - L.slotSize),
          { a with
            cleanupActionsBottom := a.cleanupActionsBottom - L.slotSize
            slots := writeSlot a.slots (a.cleanupActionsBottom - L.slotSize) ⟨r.1, r.2⟩ }) := by
      rw [scheduleCleanup_eq ho hr]
      simp [hnot]
    obtain ⟨_, _, ho1⟩ := call_ordered ho hr (.scheduleCleanup r.1 r.2)
    simp only [ArenaCall.apply, hstep] at ho1
    obtain ⟨i1, i2, i3⟩ := ih _ ho1 hr
      (by show rs.length * L.slotSize ≤ a.cleanupActionsBottom - L.slotSize - a.heapTop; omega)
    simp only [scheduleCalls] at i1 i2 i3
    simp only [scheduleCalls, List.map_cons, callResults, runCalls, ArenaCall.apply, hstep, List.length_cons]
    refine ⟨?_, ?_, i3⟩
    · intro i hi
      cases i with
      | zero => simp
      | succ i =>
        simp only [Nat.add_lt_add_iff_right] at hi
        simp only [List.getElem?_cons_succ]
        rw [i1 i hi]
        simp only [Option.some.injEq]
        have e1 : (i + 1 + 1) * L.slotSize = (i + 1) * L.slotSize + L.slotSize := Nat.succ_mul _ _
        omega
    · rw [i2]
      have e1 : (rs.length + 1) * L.slotSize = rs.length * L.slotSize + L.slotSize :=
        Nat.succ_mul _ _
      omega

/-- C14: on an arena initialised with `size = headerSize + k * slotSize` and used
for registrations only, the first `k` calls of `PiggyBankArenaScheduleCleanup`
succeed, the `i`-th one returning `end - i` slots and leaving
`cleanupActionsBottom` there; the call after the `k`-th returns `NULL` and leaves
`cleanupActionsBottom` at `end - k` slots. -/
theorem registrations_fill_exactly (L : Layout) (slots : Nat → _PiggyBankArenaCleanupAction)
    (memory k : Nat) (a0 : PiggyBankArena) (regs : List (Nat × Nat)) (hs : 0 < L.slotSize)
    (hblock : memory + (L.headerSize + k * L.slotSize) < WORD)
    (h0 : PiggyBankArenaInit L slots memory (L.headerSize + k * L.slotSize) = some a0)
    (hlen : regs.length ≤ k) :
    (∀ i, i < regs.length →
        (callResults L (scheduleCalls regs) a0)[i]?
          = some (some (a0.end_ - (i + 1) * L.slotSize))) ∧
      (runCalls L (scheduleCalls regs) a0).cleanupActionsBottom
        = a0.end_ - regs.length * L.slotSize ∧
      (regs.length = k → ∀ f x,
        (PiggyBankArenaScheduleCleanup L
          (runCalls L (scheduleCalls regs) a0) f x).1 = none ∧
        (PiggyBankArenaScheduleCleanup L
          (runCalls L (scheduleCalls regs) a0) f x).2.cleanupActionsBottom = a0.end_ - k * L.slotSize) := by
  obtain ⟨hb, he, hh, hc, ho⟩ := init_ordered hblock h0
  have hr : InRange a0 := by unfold InRange; omega
  have hmul : regs.length * L.slotSize ≤ k * L.slotSize := Nat.mul_le_mul_right _ hlen
  obtain ⟨i1, i2, i3⟩ := registrations_sequence regs a0 ho hr (by omega)
  obtain ⟨ho2, he2, _⟩ :=
    runCalls_effect (scheduleCalls regs) a0 ho hr
  have hr2 : InRange (runCalls L (scheduleCalls regs) a0) := by
    unfold InRange at *; omega
  refine ⟨?_, by rw [i2, hc, he], ?_⟩
  · intro i hi
    rw [i1 i hi, hc, he]
  · intro hk f x
    rw [scheduleCleanup_eq ho2 hr2]
    have hlt : (runCalls L (scheduleCalls regs) a0).cleanupActionsBottom
        - (runCalls L (scheduleCalls regs) a0).heapTop < L.slotSize := by
      rw [i2, i3, hk]; omega
    simp only [hlt, if_true, true_and]
    rw [i2, hk, hc, he]

/-! ## Accounting of the space -/

/-- Forgetting the counts of a counted reachable state. -/
theorem reachableWith_reachable {L : Layout} {memory size : Nat} {a : PiggyBankArena}
    {m n : Nat} (h : ReachableWith L memory size a m n) : Reachable L memory size a := by
  induction h with
  | init slots a hinit => exact Reachable.init slots a hinit
  | call a c m n _ ih => exact Reachable.call a c ih
  | cleanup a fuel calls a' m n _ hc ih => exact Reachable.cleanup a fuel calls a' ih hc

/-- Every reachable state carries counts. -/
theorem reachable_reachableWith {L : Layout} {memory size : Nat} {a : PiggyBankArena}
    (h : Reachable L memory size a) : ∃ m n, ReachableWith L memory size a m n := by
  induction h with
  | init slots a hinit => exact ⟨0, 0, ReachableWith.init slots a hinit⟩
  | call a c _ ih =>
    obtain ⟨m, n, hmn⟩ := ih
    exact ⟨_, _, ReachableWith.call a c m n hmn⟩
  | cleanup a fuel calls a' _ hc ih =>
    obtain ⟨m, n, hmn⟩ := ih
    exact ⟨0, 0, ReachableWith.cleanup a fuel calls a' m n hmn hc⟩

/-- In a counted reachable state `heapTop` is `start` plus the bytes handed out and
`cleanupActionsBottom` is `end` minus one slot per registered action. -/
theorem reachableWith_account {L : Layout} {memory size : Nat} {a : PiggyBankArena}
    {m n : Nat} (hblock : memory + size < WORD) (h : ReachableWith L memory size a m n) :
    L.headerSize < size ∧ a.base = memory ∧ a.end_ = memory + size ∧ Ordered L a ∧
      a.heapTop = memory + L.headerSize + m ∧
      a.cleanupActionsBottom + L.slotSize * n = memory + size := by
  induction h with
  | init slots a hinit =>
    obtain ⟨h1, h2, h3, h4, h5⟩ := init_ordered hblock hinit
    refine ⟨?_, h1, h2, h5, by omega, by omega⟩
    unfold PiggyBankArenaInit at hinit
    by_cases hsz : size ≤ L.headerSize
    · simp [hsz] at hinit
    · omega
  | call a c m n _ ih =>
    obtain ⟨hsz, hb, he, ho, hh, hc⟩ := ih
    have hr : InRange a := by unfold InRange; omega
    obtain ⟨h1, h2, h3⟩ := call_ordered ho hr c
    obtain ⟨e1, e2, _, _⟩ := call_effect ho hr c
    refine ⟨hsz, h1.trans hb, h2.trans he, h3, by omega, ?_⟩
    rw [Nat.mul_add]
    omega
  | cleanup a fuel calls a' m n _ hcl ih =>
    obtain ⟨hsz, hb, he, ho, _, _⟩ := ih
    obtain ⟨h1, h2, _, h4, h5, h6⟩ := cleanup_ordered ho hcl
    have hstart : a.start L = memory + L.headerSize := by
      unfold PiggyBankArena.start
      rw [hb]
      exact wadd_of_lt (by omega)
    exact ⟨hsz, h1.trans hb, h2.trans he, h6, by omega, by omega⟩

/-- C17: in every state reachable from a successful `PiggyBankArenaInit`,
`end - cleanupActionsBottom` is a multiple of the slot size, and the quotient is
the number of cleanup actions registered (by `scheduleCleanup` or by
`allocObject` with destructor) since the last initialisation or cleanup. -/
theorem registered_count (L : Layout) (memory size : Nat) (hs : 0 < L.slotSize)
    (hblock : memory + size < WORD) :
    (∀ a, Reachable L memory size a → ∃ m n, ReachableWith L memory size a m n) ∧
      ∀ a m n, ReachableWith L memory size a m n →
        L.slotSize ∣ a.end_ - a.cleanupActionsBottom ∧
        (a.end_ - a.cleanupActionsBottom) / L.slotSize = n := by
  refine ⟨fun a h => reachable_reachableWith h, ?_⟩
  intro a m n h
  obtain ⟨_, _, he, _, _, hc⟩ := reachableWith_account hblock h
  have hdiff : a.end_ - a.cleanupActionsBottom = L.slotSize * n := by omega
  rw [hdiff]
  exact ⟨Dvd.intro n rfl, Nat.mul_div_cancel_left n hs⟩

/-- C20: in every state reachable from `PiggyBankArenaInit(memory, size)` the
remaining space is `size - headerSize` minus the bytes handed out by the
successful allocations and minus one slot per registered cleanup action, both
counted since the last initialisation or cleanup; failed calls count for nothing. -/
theorem remaining_space_account (L : Layout) (memory size : Nat) (a : PiggyBankArena)
    (m n : Nat) (hblock : memory + size < WORD) (h : ReachableWith L memory size a m n) :
    PiggyBankArenaRemainingSpace a = size - L.headerSize - m - L.slotSize * n ∧
      PiggyBankArenaRemainingSpace a + m + L.slotSize * n = size - L.headerSize ∧
      PiggyBankArenaRemainingSpace a = a.cleanupActionsBottom - a.heapTop := by
  obtain ⟨hsz, _, he, ho, hh, hc⟩ := reachableWith_account hblock h
  have hr : InRange a := by unfold InRange; omega
  have hrem : PiggyBankArenaRemainingSpace a = a.cleanupActionsBottom - a.heapTop :=
    remaining_of_ordered ho hr
  have ho' := ho
  unfold Ordered at ho'
  obtain ⟨_, o2, _⟩ := ho'
  rw [hrem]
  refine ⟨by omega, by omega, rfl⟩

/-! ## Reuse after a cleanup -/

/-- The result of a call, the header after it and the pair it registers depend on
the header only, not on the content of the slots. -/
theorem call_same_header {L : Layout} {a b : PiggyBankArena} (hb : a.base = b.base)
    (he : a.end_ = b.end_) (hh : a.heapTop = b.heapTop)
    (hc : a.cleanupActionsBottom = b.cleanupActionsBottom) (c : ArenaCall) :
    (c.apply L a).1 = (c.apply L b).1 ∧ (c.apply L a).2.base = (c.apply L b).2.base ∧
      (c.apply L a).2.end_ = (c.apply L b).2.end_ ∧
      (c.apply L a).2.heapTop = (c.apply L b).2.heapTop ∧
      (c.apply L a).2.cleanupActionsBottom = (c.apply L b).2.cleanupActionsBottom ∧
      c.registered L a = c.registered L b := by
  obtain ⟨ab, ae, ah, ac, asl⟩ := a
  obtain ⟨bb, be, bh, bc, bsl⟩ := b
  simp only at hb he hh hc
  subst hb he hh hc
  cases c with
  | alloc size =>
    simp only [ArenaCall.apply, ArenaCall.registered, PiggyBankArenaAlloc]
    split_ifs <;> simp
  | scheduleCleanup f x =>
    simp only [ArenaCall.apply, ArenaCall.registered, PiggyBankArenaScheduleCleanup]
    split_ifs <;> simp
  | allocObject T flag =>
    by_cases h1 : wsub ac ah < T.size
    · cases flag <;>
        simp [ArenaCall.apply, ArenaCall.registered, PiggyBankArenaAllocObject,
          PiggyBankArenaAlloc, h1]
    · by_cases h2 : wsub ac (wadd ah T.size) < L.slotSize
      · cases flag <;>
          simp [ArenaCall.apply, ArenaCall.registered, PiggyBankArenaAllocObject,
            PiggyBankArenaAlloc, PiggyBankArenaScheduleCleanup, h1, h2]
      · cases flag <;>
          simp [ArenaCall.apply, ArenaCall.registered, PiggyBankArenaAllocObject,
            PiggyBankArenaAlloc, PiggyBankArenaScheduleCleanup, h1, h2]

/-- The loop of the cleanup makes the same calls on two arenas with the same `end`
whose slots from `action` up to `end` hold the same actions. -/
theorem cleanupLoop_same {L : Layout} {a b : PiggyBankArena} (hs : 0 < L.slotSize)
    (he : a.end_ = b.end_) (hr : InRange a) :
    ∀ (n fuel action : Nat), action + n * L.slotSize = a.end_ →
      slotList L a.slots action n = slotList L b.slots action n →
      cleanupLoop L a fuel action = cleanupLoop L b fuel action := by
  intro n
  induction n with
  | zero =>
    intro fuel action hn _
    rw [cleanupLoop_of_ge L a fuel action (by omega),
      cleanupLoop_of_ge L b fuel action (by omega)]
  | succ n ih =>
    intro fuel action hn hl
    unfold InRange at hr
    have hstep : action + L.slotSize + n * L.slotSize = a.end_ := by
      rw [← hn, Nat.succ_mul]; omega
    have hlt : action < a.end_ := by omega
    have hlt' : action < b.end_ := by omega
    have hw : wadd action L.slotSize = action + L.slotSize := by
      apply wadd_of_lt
      have : action + L.slotSize ≤ a.end_ := by
        rw [← hstep]; exact Nat.le_add_right _ _
      omega
    simp only [slotList, List.cons.injEq] at hl
    cases fuel with
    | zero => simp [cleanupLoop, hlt, hlt']
    | succ fuel =>
      simp only [cleanupLoop, hlt, hlt', if_true, hw]
      rw [ih fuel (action + L.slotSize) hstep hl.2, hl.1]

/-- Two ordered arenas with the same header whose action stacks hold the same
actions give the same observations along every sequence of operations. -/
theorem runOps_same {L : Layout} (hs : 0 < L.slotSize) (fuel : Nat) (ops : List ArenaOp) :
    ∀ (a b : PiggyBankArena) (k : Nat), Ordered L a → InRange a → a.base = b.base →
      a.end_ = b.end_ → a.heapTop = b.heapTop →
      a.cleanupActionsBottom = b.cleanupActionsBottom →
      a.cleanupActionsBottom + k * L.slotSize = a.end_ →
      slotList L a.slots a.cleanupActionsBottom k = slotList L b.slots b.cleanupActionsBottom k →
      (runOps L fuel ops a).map Prod.fst = (runOps L fuel ops b).map Prod.fst := by
  induction ops with
  | nil =>
    intro a b k _ _ _ _ _ _ _ _
    simp [runOps]
  | cons op ops ih =>
    intro a b k ho hr hb he hh hc hk hl
    have hob : Ordered L b := by
      unfold Ordered PiggyBankArena.start at *
      rw [← hb, ← he, ← hh, ← hc]
      exact ho
    have hrb : InRange b := by
      unfold InRange at *; omega
    cases op with
    | call c =>
      obtain ⟨r1, r2, r3, r4, r5, r6⟩ := call_same_header (L := L) hb he hh hc c
      obtain ⟨_, e1, o1⟩ := call_ordered ho hr c
      have hr1 : InRange (c.apply L a).2 := by
        unfold InRange at *; omega
      obtain ⟨ka, hka, hla⟩ := call_slotList hs ho hr c k hk
      obtain ⟨kb, hkb, hlb⟩ := call_slotList hs hob hrb c k (by omega)
      have hkk : ka = kb := by
        have : ka * L.slotSize = kb * L.slotSize := by omega
        exact Nat.eq_of_mul_eq_mul_right hs this
      subst hkk
      have hl1 : slotList L (c.apply L a).2.slots (c.apply L a).2.cleanupActionsBottom ka =
          slotList L (c.apply L b).2.slots (c.apply L b).2.cleanupActionsBottom ka := by
        rw [hla, hlb, r6, hl]
      have ih' := ih (c.apply L a).2 (c.apply L b).2 ka o1 hr1 r2 r3 r4 r5 (by omega) hl1
      simp only [runOps, r1]
      cases ha : runOps L fuel ops (c.apply L a).2 <;>
        cases hb' : runOps L fuel ops (c.apply L b).2 <;>
        simp [ha, hb'] at ih' ⊢
      exact ih'
    | cleanup =>
      have hloop : cleanupLoop L a fuel a.cleanupActionsBottom
          = cleanupLoop L b fuel b.cleanupActionsBottom := by
        rw [← hc]
        exact cleanupLoop_same hs he hr k fuel a.cleanupActionsBottom hk (by rw [hl, hc])
      simp only [runOps, PiggyBankArenaCleanup, ← hloop]
      cases hcl : cleanupLoop L a fuel a.cleanupActionsBottom with
      | none => simp
      | some tr =>
        have o1 : Ordered L { a with heapTop := a.start L, cleanupActionsBottom := a.end_ } := by
          unfold Ordered PiggyBankArena.start at *
          simp only
          omega
        have hstart : a.start L = b.start L := by
          unfold PiggyBankArena.start
          rw [hb]
        have ih' := ih { a with heapTop := a.start L, cleanupActionsBottom := a.end_ }
          { b with heapTop := b.start L, cleanupActionsBottom := b.end_ } 0 o1 hr hb he hstart he
          (by simp) rfl
        simp only
        cases ha : runOps L fuel ops
            { a with heapTop := a.start L, cleanupActionsBottom := a.end_ } <;>
          cases hb' : runOps L fuel ops
            { b with heapTop := b.start L, cleanupActionsBottom := b.end_ } <;>
          simp [ha, hb'] at ih' ⊢
        exact ih'

/-- With one unit of fuel per slot that fits between `start` and `end`, every
sequence of operations on an ordered arena with whole slots runs to its end. -/
theorem runOps_isSome {L : Layout} (hs : 0 < L.slotSize) (fuel : Nat) (ops : List ArenaOp) :
    ∀ (a : PiggyBankArena) (k : Nat), Ordered L a → InRange a →
      a.cleanupActionsBottom + k * L.slotSize = a.end_ →
      (a.end_ - a.start L) / L.slotSize ≤ fuel →
      (runOps L fuel ops a).isSome = true := by
  induction ops with
  | nil =>
    intro a k _ _ _ _
    simp [runOps]
  | cons op ops ih =>
    intro a k ho hr hk hf
    cases op with
    | call c =>
      obtain ⟨b1, e1, o1⟩ := call_ordered ho hr c
      have hr1 : InRange (c.apply L a).2 := by
        unfold InRange at *; omega
      obtain ⟨k1, hk1, _⟩ := call_slotList hs ho hr c k hk
      have hstart : (c.apply L a).2.start L = a.start L := by
        unfold PiggyBankArena.start
        rw [b1]
      have ih' := ih (c.apply L a).2 k1 o1 hr1 (by omega) (by rw [e1, hstart]; exact hf)
      simp only [runOps]
      cases ha : runOps L fuel ops (c.apply L a).2 with
      | none => simp [ha] at ih'
      | some v => simp
    | cleanup =>
      have ho' := ho
      unfold Ordered at ho'
      have hkf : k ≤ fuel := by
        have h1 : k * L.slotSize ≤ a.end_ - a.start L := by omega
        have h2 : k ≤ (a.end_ - a.start L) / L.slotSize := (Nat.le_div_iff_mul_le hs).mpr h1
        omega
      have hloop := cleanupLoop_slotList a hs hr k fuel a.cleanupActionsBottom hk hkf
      have o1 : Ordered L { a with heapTop := a.start L, cleanupActionsBottom := a.end_ } := by
        unfold Ordered PiggyBankArena.start at *
        simp only
        omega
      have ih' := ih { a with heapTop := a.start L, cleanupActionsBottom := a.end_ } 0 o1 hr
        (by simp) hf
      simp only [runOps, cleanup_of_loop hloop]
      cases ha : runOps L fuel ops
          { a with heapTop := a.start L, cleanupActionsBottom := a.end_ } with
      | none => simp [ha] at ih'
      | some v => simp

/-- C18: after a cleanup of any reachable state, every sequence of `alloc` /
`scheduleCleanup` / `allocObject` / cleanup operations gives the same
observations (each returned pointer, and the ordered list of callbacks called by
each cleanup) as on an arena freshly initialised over the same memory with the
same size, whatever the slots held at that initialisation; with one unit of fuel
per slot of capacity both runs reach their end.  The stale slots left in the
buffer are therefore never called. -/
theorem reuse_after_cleanup (L : Layout) (memory size : Nat) (a a1 a0 : PiggyBankArena)
    (fuel0 fuel : Nat) (tr : List _PiggyBankArenaCleanupAction)
    (slots0 : Nat → _PiggyBankArenaCleanupAction) (ops : List ArenaOp)
    (hs : 0 < L.slotSize) (hblock : memory + size < WORD)
    (h : Reachable L memory size a) (hc : PiggyBankArenaCleanup L fuel0 a = some (tr, a1))
    (h0 : PiggyBankArenaInit L slots0 memory size = some a0) :
    (runOps L fuel ops a1).map Prod.fst = (runOps L fuel ops a0).map Prod.fst ∧
      ((size - L.headerSize) / L.slotSize ≤ fuel →
        (runOps L fuel ops a1).isSome = true ∧ (runOps L fuel ops a0).isSome = true) := by
  obtain ⟨hsz, hb, he, ho, _⟩ := reachable_inv hs hblock h
  obtain ⟨c1, c2, _, c4, c5, c6⟩ := cleanup_ordered ho hc
  obtain ⟨i1, i2, i3, i4, i5⟩ := init_ordered hblock h0
  have hstart : a.start L = memory + L.headerSize := by
    unfold PiggyBankArena.start
    rw [hb]
    exact wadd_of_lt (by omega)
  have hstart1 : a1.start L = memory + L.headerSize := by
    unfold PiggyBankArena.start at *
    rw [c1]; exact hstart
  have hstart0 : a0.start L = memory + L.headerSize := by
    unfold PiggyBankArena.start
    rw [i1]
    exact wadd_of_lt (by omega)
  have hr1 : InRange a1 := by unfold InRange; omega
  have hr0 : InRange a0 := by unfold InRange; omega
  refine ⟨?_, ?_⟩
  · exact runOps_same hs fuel ops a1 a0 0 c6 hr1 (by omega) (by omega) (by omega) (by omega)
      (by omega) rfl
  · intro hf
    refine ⟨runOps_isSome hs fuel ops a1 0 c6 hr1 (by omega) ?_,
      runOps_isSome hs fuel ops a0 0 i5 hr0 (by omega) ?_⟩
    · rw [hstart1, c2, he]
      have : memory + size - (memory + L.headerSize) = size - L.headerSize := by omega
      rw [this]; exact hf
    · rw [hstart0, i2]
      have : memory + size - (memory + L.headerSize) = size - L.headerSize := by omega
      rw [this]; exact hf

/-! ## Destructors at cleanup -/

/-- A successful `alloc` or `allocObject` returns the old `heapTop` and moves
`heapTop` up by the size asked for. -/
theorem call_result_heap {L : Layout} {a : PiggyBankArena} (ho : Ordered L a)
    (hr : InRange a) :
    (∀ s p, (PiggyBankArenaAlloc a s).1 = some p →
        p = a.heapTop ∧ (PiggyBankArenaAlloc a s).2.heapTop = a.heapTop + s) ∧
      (∀ U flag p, (PiggyBankArenaAllocObject L U a flag).1 = some p →
        p = a.heapTop ∧ (PiggyBankArenaAllocObject L U a flag).2.heapTop = a.heapTop + U.size) := by
  refine ⟨?_, ?_⟩
  · intro s p hp
    have h1 := (call_effect ho hr (.alloc s)).1
    have h3 := (call_effect ho hr (.alloc s)).2.2.1
    simp only [ArenaCall.apply, ArenaCall.allocated, ArenaCall.allocation, hp] at h1 h3
    exact ⟨h3 p s rfl, h1⟩
  · intro U flag p hp
    have h1 := (call_effect ho hr (.allocObject U flag)).1
    have h3 := (call_effect ho hr (.allocObject U flag)).2.2.1
    simp only [ArenaCall.apply, ArenaCall.allocated, ArenaCall.allocation, hp] at h1 h3
    exact ⟨h3 p U.size rfl, h1⟩

/-- A registered pair whose callback is the destructor wrapper of `T` comes from a
typed allocation and carries the old `heapTop`, which lies below the new one. -/
theorem head_registered_lt {L : Layout} {a : PiggyBankArena} (ho : Ordered L a)
    (hr : InRange a) (T : ObjType) (c : ArenaCall)
    (hobj : ∀ U flag, c = ArenaCall.allocObject U flag → 0 < U.size)
    (hown : ∀ f x, c = ArenaCall.scheduleCleanup f x → f ≠ T.destroyObject) :
    ∀ v, c.registered L a = some v → v.func = T.destroyObject →
      v.argument = a.heapTop ∧ v.argument < (c.apply L a).2.heapTop := by
  intro v hv hf
  cases c with
  | alloc s => simp [ArenaCall.registered] at hv
  | scheduleCleanup f x =>
    simp only [ArenaCall.registered] at hv
    cases hres : (PiggyBankArenaScheduleCleanup L a f x).1 with
    | none => simp [hres] at hv
    | some q =>
      simp only [hres, Option.some.injEq] at hv
      subst hv
      exact absurd hf (hown f x rfl)
  | allocObject U flag =>
    cases flag with
    | false => simp [ArenaCall.registered] at hv
    | true =>
      simp only [ArenaCall.registered] at hv
      cases hres : (PiggyBankArenaAllocObject L U a true).1 with
      | none => simp [hres] at hv
      | some q =>
        simp only [hres, Option.some.injEq] at hv
        subst hv
        obtain ⟨e1, e2⟩ := (call_result_heap ho hr).2 U true q hres
        have := hobj U true rfl
        simp only [ArenaCall.apply]
        exact ⟨e1, by omega⟩

/-- The pairs registered with the destructor wrapper of `T` by a sequence of calls
that does not itself pass this wrapper to `scheduleCleanup` carry addresses at or
above the initial `heapTop`. -/
theorem registeredBy_wrapper_ge {L : Layout} (T : ObjType) (cs : List ArenaCall) :
    ∀ (a : PiggyBankArena), Ordered L a → InRange a →
      (∀ f x, ArenaCall.scheduleCleanup f x ∈ cs → f ≠ T.destroyObject) →
      ∀ v ∈ registeredBy L cs a, v.func = T.destroyObject → a.heapTop ≤ v.argument := by
  induction cs with
  | nil => intro a _ _ _ v hv; simp [registeredBy] at hv
  | cons c cs ih =>
    intro a ho hr hown v hv hf
    obtain ⟨_, e1, o1⟩ := call_ordered ho hr c
    have hr1 : InRange (c.apply L a).2 := by
      unfold InRange at *; omega
    have hmono := (call_effect ho hr c).1
    simp only [registeredBy] at hv
    rcases List.mem_append.mp hv with hv | hv
    · cases hreg : c.registered L a with
      | none => simp [hreg] at hv
      | some w =>
        simp only [hreg, Option.toList, List.mem_singleton] at hv
        subst hv
        cases c with
        | alloc s => simp [ArenaCall.registered] at hreg
        | scheduleCleanup f x =>
          simp only [ArenaCall.registered] at hreg
          cases hres : (PiggyBankArenaScheduleCleanup L a f x).1 with
          | none => simp [hres] at hreg
          | some q =>
            simp only [hres, Option.some.injEq] at hreg
            subst hreg
            exact absurd hf (hown f x (List.mem_cons_self _ _))
        | allocObject U flag =>
          cases flag with
          | false => simp [ArenaCall.registered] at hreg
          | true =>
            simp only [ArenaCall.registered] at hreg
            cases hres : (PiggyBankArenaAllocObject L U a true).1 with
            | none => simp [hres] at hreg
            | some q =>
              simp only [hres, Option.some.injEq] at hreg
              subst hreg
              have := ((call_result_heap ho hr).2 U true q hres).1
              simp only
              omega
    · have := ih (c.apply L a).2 o1 hr1
        (fun f x hm => hown f x (List.mem_cons_of_mem _ hm)) v hv hf
      omega

/-- The pointers returned by the `alloc` and `allocObject` calls of a sequence are
at or above the initial `heapTop`. -/
theorem callLog_ge {L : Layout} (cs : List ArenaCall) :
    ∀ (a : PiggyBankArena), Ordered L a → InRange a → ∀ p,
      (∀ s, (ArenaCall.alloc s, some p) ∈ callLog L cs a → a.heapTop ≤ p) ∧
      (∀ U flag, (ArenaCall.allocObject U flag, some p) ∈ callLog L cs a → a.heapTop ≤ p) := by
  induction cs with
  | nil => intro a _ _ p; simp [callLog]
  | cons c cs ih =>
    intro a ho hr p
    obtain ⟨_, e1, o1⟩ := call_ordered ho hr c
    have hr1 : InRange (c.apply L a).2 := by
      unfold InRange at *; omega
    have hmono := (call_effect ho hr c).1
    obtain ⟨t1, t2⟩ := ih (c.apply L a).2 o1 hr1 p
    refine ⟨?_, ?_⟩
    · intro s hm
      simp only [callLog, List.mem_cons, Prod.mk.injEq] at hm
      rcases hm with ⟨hc, hres⟩ | hm
      · subst hc
        have := ((call_result_heap (L := L) ho hr).1 s p hres.symm).1
        omega
      · have := t1 s hm
        omega
    · intro U flag hm
      simp only [callLog, List.mem_cons, Prod.mk.injEq] at hm
      rcases hm with ⟨hc, hres⟩ | hm
      · subst hc
        have := ((call_result_heap ho hr).2 U flag p hres.symm).1
        omega
      · have := t2 U flag hm
        omega

/-- Among the pairs registered by a sequence of calls, the destructor wrapper of `T`
occurs once with each address returned by an `allocObject<T>(true)`, and with no
address returned by an `allocObject(false)` or by an `alloc` of non-zero size. -/
theorem wrapper_registrations {L : Layout} (T : ObjType) (cs : List ArenaCall) :
    ∀ (a : PiggyBankArena), Ordered L a → InRange a →
      (∀ U flag, ArenaCall.allocObject U flag ∈ cs → 0 < U.size) →
      (∀ f x, ArenaCall.scheduleCleanup f x ∈ cs → f ≠ T.destroyObject) →
      ∀ p,
        ((ArenaCall.allocObject T true, some p) ∈ callLog L cs a →
          (registeredBy L cs a).count ⟨T.destroyObject, p⟩ = 1) ∧
        (∀ U, (ArenaCall.allocObject U false, some p) ∈ callLog L cs a →
          ⟨T.destroyObject, p⟩ ∉ registeredBy L cs a) ∧
        (∀ s, 0 < s → (ArenaCall.alloc s, some p) ∈ callLog L cs a →
          ⟨T.destroyObject, p⟩ ∉ registeredBy L cs a) := by
  induction cs with
  | nil => intro a _ _ _ _ p; simp [callLog]
  | cons c cs ih =>
    intro a ho hr hobj hown p
    obtain ⟨_, e1, o1⟩ := call_ordered ho hr c
    have hr1 : InRange (c.apply L a).2 := by
      unfold InRange at *; omega
    have hobj' : ∀ U flag, ArenaCall.allocObject U flag ∈ cs → 0 < U.size :=
      fun U flag hm => hobj U flag (List.mem_cons_of_mem _ hm)
    have hown' : ∀ f x, ArenaCall.scheduleCleanup f x ∈ cs → f ≠ T.destroyObject :=
      fun f x hm => hown f x (List.mem_cons_of_mem _ hm)
    obtain ⟨ihA, ihB, ihC⟩ := ih (c.apply L a).2 o1 hr1 hobj' hown' p
    obtain ⟨logA, logO⟩ := callLog_ge cs (c.apply L a).2 o1 hr1 p
    have htail : ∀ q, q < (c.apply L a).2.heapTop →
        (⟨T.destroyObject, q⟩ : _PiggyBankArenaCleanupAction) ∉ registeredBy L cs (c.apply L a).2 := by
      intro q hq hm
      have := registeredBy_wrapper_ge T cs (c.apply L a).2 o1 hr1 hown' _ hm rfl
      simp only at this
      omega
    have hhead : ∀ q, (c.apply L a).2.heapTop ≤ q →
        (⟨T.destroyObject, q⟩ : _PiggyBankArenaCleanupAction) ∉ (c.registered L a).toList := by
      intro q hq hm
      cases hreg : c.registered L a with
      | none => simp [hreg] at hm
      | some w =>
        simp only [hreg, Option.toList, List.mem_singleton] at hm
        subst hm
        have := (head_registered_lt ho hr T c
          (fun U flag hc => hobj U flag (by rw [hc]; exact List.mem_cons_self _ _))
          (fun f x hc => hown f x (by rw [hc]; exact List.mem_cons_self _ _)) _ hreg rfl).2
        simp only at this
        omega
    refine ⟨?_, ?_, ?_⟩
    · intro hm
      simp only [callLog, List.mem_cons, Prod.mk.injEq] at hm
      simp only [registeredBy, List.count_append]
      rcases hm with ⟨hc, hres⟩ | hm
      · subst hc
        obtain ⟨p1, p2⟩ := (call_result_heap ho hr).2 T true p hres.symm
        have hpos := hobj T true (List.mem_cons_self _ _)
        have hnot := htail p (by simp only [ArenaCall.apply]; omega)
        have hreg : ArenaCall.registered L a (.allocObject T true)
            = some ⟨T.destroyObject, p⟩ := by
          have hres' : (PiggyBankArenaAllocObject L T a true).1 = some p := hres.symm
          simp only [ArenaCall.registered, hres']
        rw [hreg, List.count_eq_zero_of_not_mem hnot]
        simp
      · have hnot := hhead p (logO T true hm)
        rw [List.count_eq_zero_of_not_mem hnot, ihA hm]
    · intro U hm
      simp only [callLog, List.mem_cons, Prod.mk.injEq] at hm
      simp only [registeredBy, List.mem_append, not_or]
      rcases hm with ⟨hc, hres⟩ | hm
      · subst hc
        obtain ⟨p1, p2⟩ := (call_result_heap ho hr).2 U false p hres.symm
        have hpos := hobj U false (List.mem_cons_self _ _)
        refine ⟨by simp [ArenaCall.registered], htail p ?_⟩
        simp only [ArenaCall.apply]; omega
      · exact ⟨hhead p (logO U false hm), ihB U hm⟩
    · intro s hs hm
      simp only [callLog, List.mem_cons, Prod.mk.injEq] at hm
      simp only [registeredBy, List.mem_append, not_or]
      rcases hm with ⟨hc, hres⟩ | hm
      · subst hc
        obtain ⟨p1, p2⟩ := (call_result_heap (L := L) ho hr).1 s p hres.symm
        refine ⟨by simp [ArenaCall.registered], htail p ?_⟩
        simp only [ArenaCall.apply]; omega
      · exact ⟨hhead p (logA s hm), ihC s hs hm⟩

/-- The calls made by the cleanup that follows a sequence of calls on an arena
with an empty action stack. -/
theorem cleanupLoop_runCalls {L : Layout} (hs : 0 < L.slotSize) (a0 : PiggyBankArena)
    (calls : List ArenaCall) (fuel : Nat) (ho : Ordered L a0) (hr : InRange a0)
    (hempty : a0.cleanupActionsBottom = a0.end_)
    (hfuel : (registeredBy L calls a0).length ≤ fuel) :
    cleanupLoop L (runCalls L calls a0) fuel (runCalls L calls a0).cleanupActionsBottom
      = some (registeredBy L calls a0).reverse := by
  obtain ⟨he, _, k, hk, hl⟩ := runCalls_slotList hs calls a0 0 ho hr (by omega)
  have hr' : InRange (runCalls L calls a0) := by
    unfold InRange at *; omega
  have hlist : slotList L (runCalls L calls a0).slots
      (runCalls L calls a0).cleanupActionsBottom k = (registeredBy L calls a0).reverse := by
    rw [hl]; simp [slotList]
  have hlen : k = (registeredBy L calls a0).length := by
    have := congrArg List.length hlist
    rw [slotList_length, List.length_reverse] at this
    exact this
  have hloop := cleanupLoop_slotList (runCalls L calls a0) hs hr' k fuel
    (runCalls L calls a0).cleanupActionsBottom (by omega) (by omega)
  rw [hlist] at hloop
  exact hloop

/-- The events of the loop are its calls, each seen with the header of the arena
on which the loop runs. -/
theorem cleanupEventsLoop_eq (L : Layout) (a : PiggyBankArena) :
    ∀ (fuel action : Nat), cleanupEventsLoop L a fuel action
      = (cleanupLoop L a fuel action).map
          (List.map (fun v => CleanupEvent.call v a.heapTop a.cleanupActionsBottom)) := by
  intro fuel
  induction fuel with
  | zero =>
    intro action
    simp only [cleanupLoop, cleanupEventsLoop]
    split_ifs <;> rfl
  | succ fuel ih =>
    intro action
    simp only [cleanupLoop, cleanupEventsLoop]
    split_ifs
    · rw [ih]
      cases cleanupLoop L a fuel (wadd action L.slotSize) <;> rfl
    · rfl

/-- When the loop returns the calls `tr`, the cleanup makes these calls on the
header as it was, then writes `heapTop`, then writes `cleanupActionsBottom`. -/
theorem cleanupEvents_of_loop {L : Layout} {a : PiggyBankArena} {fuel : Nat}
    {tr : List _PiggyBankArenaCleanupAction}
    (h : cleanupLoop L a fuel a.cleanupActionsBottom = some tr) :
    PiggyBankArenaCleanupEvents L fuel a =
      some (tr.map (fun v => CleanupEvent.call v a.heapTop a.cleanupActionsBottom) ++
          [CleanupEvent.setHeapTop (a.start L), CleanupEvent.setCleanupActionsBottom a.end_],
        { a with heapTop := a.start L, cleanupActionsBottom := a.end_ }) := by
  unfold PiggyBankArenaCleanupEvents
  rw [cleanupEventsLoop_eq, h]
  rfl

/-- C12, amended: after a sequence of calls on an arena with an empty action
stack, in which the caller does not itself pass the destructor wrapper of `T` to
`scheduleCleanup`, the cleanup calls the destructor wrapper of `T` exactly once on
each address returned by a successful `allocObject<T>(true)`, never on an address
returned by `allocObject(false)` or by an `alloc` of non-zero size, and all these
calls are made before `heapTop` and `cleanupActionsBottom` are reset: in the
sequence of events of the cleanup every call comes before the two writes to the
header, and every call sees `heapTop` and `cleanupActionsBottom` as they were
before the cleanup. -/
theorem destructors_at_cleanup (L : Layout) (a0 : PiggyBankArena) (T : ObjType)
    (calls : List ArenaCall) (fuel : Nat) (hs : 0 < L.slotSize) (ho : Ordered L a0)
    (hr : InRange a0) (hempty : a0.cleanupActionsBottom = a0.end_)
    (hobj : ∀ U flag, ArenaCall.allocObject U flag ∈ calls → 0 < U.size)
    (hown : ∀ f x, ArenaCall.scheduleCleanup f x ∈ calls → f ≠ T.destroyObject)
    (hfuel : (registeredBy L calls a0).length ≤ fuel) :
    ∃ tr, cleanupLoop L (runCalls L calls a0) fuel (runCalls L calls a0).cleanupActionsBottom
        = some tr ∧
      PiggyBankArenaCleanup L fuel (runCalls L calls a0) =
        some (tr, { runCalls L calls a0 with
          heapTop := (runCalls L calls a0).start L
          cleanupActionsBottom := (runCalls L calls a0).end_ }) ∧
      (∀ p, (ArenaCall.allocObject T true, some p) ∈ callLog L calls a0 →
        tr.count ⟨T.destroyObject, p⟩ = 1) ∧
      (∀ p U, (ArenaCall.allocObject U false, some p) ∈ callLog L calls a0 →
        ⟨T.destroyObject, p⟩ ∉ tr) ∧
      (∀ p s, 0 < s → (ArenaCall.alloc s, some p) ∈ callLog L calls a0 →
        ⟨T.destroyObject, p⟩ ∉ tr) ∧
      PiggyBankArenaCleanupEvents L fuel (runCalls L calls a0) =
        some (tr.map (fun v => CleanupEvent.call v (runCalls L calls a0).heapTop
              (runCalls L calls a0).cleanupActionsBottom) ++
            [CleanupEvent.setHeapTop ((runCalls L calls a0).start L),
              CleanupEvent.setCleanupActionsBottom (runCalls L calls a0).end_],
          { runCalls L calls a0 with
            heapTop := (runCalls L calls a0).start L
            cleanupActionsBottom := (runCalls L calls a0).end_ }) := by
  have hloop := cleanupLoop_runCalls hs a0 calls fuel ho hr hempty hfuel
  refine ⟨_, hloop, cleanup_of_loop hloop, ?_, ?_, ?_, cleanupEvents_of_loop hloop⟩
  · intro p hm
    rw [List.count_reverse]
    exact (wrapper_registrations T calls a0 ho hr hobj hown p).1 hm
  · intro p U hm
    rw [List.mem_reverse]
    exact (wrapper_registrations T calls a0 ho hr hobj hown p).2.1 U hm
  · intro p s hpos hm
    rw [List.mem_reverse]
    exact (wrapper_registrations T calls a0 ho hr hobj hown p).2.2 s hpos hm

/-- C12 as stated fails: on the freshly initialised `freshArena`, `alloc(0)`
returns the address 4120, the following `allocObject<_TestStruct>(true)` returns
4120 as well, and the cleanup calls the destructor wrapper on 4120, an address
returned by a raw `alloc`.  The same happens when the caller passes the wrapper
to `scheduleCleanup` with the address that `alloc(8)` returned. -/
theorem destructor_on_raw_alloc_address :
    PiggyBankArenaInit lp64 zeroSlots 4096 88 = some freshArena ∧
      ((ArenaCall.alloc 0, some 4120) ∈ callLog lp64 zeroThenObject freshArena ∧
        (PiggyBankArenaCleanup lp64 1 (runCalls lp64 zeroThenObject freshArena)).map Prod.fst
          = some [⟨testStruct.destroyObject, 4120⟩]) ∧
      ((ArenaCall.alloc 8, some 4120) ∈ callLog lp64 handRegistered freshArena ∧
        (PiggyBankArenaCleanup lp64 1 (runCalls lp64 handRegistered freshArena)).map Prod.fst
          = some [⟨testStruct.destroyObject, 4120⟩]) ∧
      ¬ (∀ p s, (ArenaCall.alloc s, some p) ∈ callLog lp64 zeroThenObject freshArena →
        ∀ tr, (PiggyBankArenaCleanup lp64 1 (runCalls lp64 zeroThenObject freshArena)).map
            Prod.fst = some tr →
          (⟨testStruct.destroyObject, p⟩ : _PiggyBankArenaCleanupAction) ∉ tr) := by
  have h1 : (ArenaCall.alloc 0, some 4120) ∈ callLog lp64 zeroThenObject freshArena := by decide
  have h2 : (PiggyBankArenaCleanup lp64 1 (runCalls lp64 zeroThenObject freshArena)).map Prod.fst
      = some [⟨testStruct.destroyObject, 4120⟩] := by decide
  refine ⟨rfl, ⟨h1, h2⟩, ⟨by decide, by decide⟩, ?_⟩
  intro hall
  exact hall 4120 0 h1 _ h2 (List.mem_singleton.mpr rfl)

/-! ## Instances on the buffers of the tests -/

/-- Witness of C19: the first typed allocation on `freshArena`. -/
theorem allocObject_with_destructor_witness :
    (4096 + 88 < WORD ∧ Reachable lp64 4096 88 freshArena) ∧
      ((PiggyBankArenaAllocObject lp64 testStruct freshArena true).1.isSome = true ↔
        testStruct.size + lp64.slotSize ≤ PiggyBankArenaRemainingSpace freshArena) :=
  ⟨⟨by decide, Reachable.init zeroSlots freshArena rfl⟩,
    (allocObject_with_destructor lp64 4096 88 freshArena testStruct (by decide)
      (Reachable.init zeroSlots freshArena rfl)).1⟩

/-- Witness of C13: three allocations of 8 bytes on `freshArena`. -/
theorem sequential_allocs_witness :
    (4096 + 88 < WORD ∧ PiggyBankArenaInit lp64 zeroSlots 4096 88 = some freshArena ∧
        [8, 8, 8].sum ≤ 88 - lp64.headerSize) ∧
      (runCalls lp64 ([8, 8, 8].map ArenaCall.alloc) freshArena).heapTop
        = freshArena.start lp64 + [8, 8, 8].sum :=
  ⟨⟨by decide, rfl, by decide⟩,
    (sequential_allocs lp64 zeroSlots 4096 88 freshArena [8, 8, 8] (by decide) rfl
      (by decide)).2.2.1⟩

/-- Witness of C14: three registrations on `slotsArena`. -/
theorem registrations_fill_exactly_witness :
    (0 < lp64.slotSize ∧ 4096 + (lp64.headerSize + 3 * lp64.slotSize) < WORD ∧
        PiggyBankArenaInit lp64 zeroSlots 4096 (lp64.headerSize + 3 * lp64.slotSize)
          = some slotsArena ∧
        [(1, 10), (2, 20), (3, 30)].length ≤ 3) ∧
      (runCalls lp64 (scheduleCalls [(1, 10), (2, 20), (3, 30)]) slotsArena).cleanupActionsBottom
        = slotsArena.end_ - [(1, 10), (2, 20), (3, 30)].length * lp64.slotSize :=
  ⟨⟨by decide, by decide, rfl, by decide⟩,
    (registrations_fill_exactly lp64 zeroSlots 4096 3 slotsArena [(1, 10), (2, 20), (3, 30)]
      (by decide) (by decide) rfl (by decide)).2.1⟩

/-- Witness of C15: 8 bytes allocated on `freshArena`, followed by `sampleCalls`. -/
theorem allocation_stays_valid_witness :
    (4096 + 88 < WORD ∧ Reachable lp64 4096 88 freshArena ∧
        (PiggyBankArenaAlloc freshArena 8).1 = some 4120) ∧
      ((runCalls lp64 sampleCalls (PiggyBankArenaAlloc freshArena 8).2).start lp64 ≤ 4120 ∧
        4120 + 8 ≤ (runCalls lp64 sampleCalls (PiggyBankArenaAlloc freshArena 8).2).heapTop) :=
  ⟨⟨by decide, Reachable.init zeroSlots freshArena rfl, by decide⟩,
    (allocation_stays_valid lp64 4096 88 freshArena 8 4120 sampleCalls (by decide)
      (Reachable.init zeroSlots freshArena rfl) (by decide)).2.1⟩

/-- Witness of C16: the blocks handed out by `sampleCalls` on `freshArena`. -/
theorem allocations_disjoint_witness :
    (Ordered lp64 freshArena ∧ InRange freshArena) ∧
      List.Pairwise
        (fun x y => x.1 + x.2 ≤ y.1 ∧
          ∀ q, ¬ ((x.1 ≤ q ∧ q < x.1 + x.2) ∧ (y.1 ≤ q ∧ q < y.1 + y.2)))
        (allocationsBy lp64 sampleCalls freshArena) :=
  ⟨⟨by decide, by decide⟩,
    allocations_disjoint lp64 freshArena sampleCalls (by decide) (by decide)⟩

/-- Witness of C17: one registration on `freshArena`. -/
theorem registered_count_witness :
    (0 < lp64.slotSize ∧ 4096 + 88 < WORD ∧
        ReachableWith lp64 4096 88 (ArenaCall.apply lp64 freshArena (.scheduleCleanup 1 10)).2
          0 1) ∧
      ((ArenaCall.apply lp64 freshArena (.scheduleCleanup 1 10)).2.end_ -
        (ArenaCall.apply lp64 freshArena (.scheduleCleanup 1 10)).2.cleanupActionsBottom)
        / lp64.slotSize = 1 :=
  ⟨⟨by decide, by decide,
      ReachableWith.call freshArena (.scheduleCleanup 1 10) 0 0
        (ReachableWith.init zeroSlots freshArena rfl)⟩,
    ((registered_count lp64 4096 88 (by decide) (by decide)).2 _ 0 1
      (ReachableWith.call freshArena (.scheduleCleanup 1 10) 0 0
        (ReachableWith.init zeroSlots freshArena rfl))).2⟩

/-- Witness of C20: one typed allocation with destructor on `freshArena`. -/
theorem remaining_space_account_witness :
    (4096 + 88 < WORD ∧
        ReachableWith lp64 4096 88
          (ArenaCall.apply lp64 freshArena (.allocObject testStruct true)).2 8 1) ∧
      PiggyBankArenaRemainingSpace
          (ArenaCall.apply lp64 freshArena (.allocObject testStruct true)).2
        = 88 - lp64.headerSize - 8 - lp64.slotSize * 1 :=
  ⟨⟨by decide,
      ReachableWith.call freshArena (.allocObject testStruct true) 0 0
        (ReachableWith.init zeroSlots freshArena rfl)⟩,
    (remaining_space_account lp64 4096 88 _ 8 1 (by decide)
      (ReachableWith.call freshArena (.allocObject testStruct true) 0 0
        (ReachableWith.init zeroSlots freshArena rfl))).1⟩

/-- Witness of C18: `sampleOps` after the cleanup of `fullArena`, whose buffer
holds a stale action, against `sampleOps` on the freshly initialised `freshArena`. -/
theorem reuse_after_cleanup_witness :
    (0 < lp64.slotSize ∧ 4096 + 88 < WORD ∧ Reachable lp64 4096 88 fullArena ∧
        PiggyBankArenaCleanup lp64 1 fullArena = some ([⟨7, 9⟩], staleArena) ∧
        PiggyBankArenaInit lp64 zeroSlots 4096 88 = some freshArena) ∧
      (runOps lp64 4 sampleOps staleArena).map Prod.fst
        = (runOps lp64 4 sampleOps freshArena).map Prod.fst :=
  ⟨⟨by decide, by decide,
      Reachable.call (ArenaCall.apply lp64 freshArena (.scheduleCleanup 7 9)).2 (.alloc 44)
        (Reachable.call freshArena (.scheduleCleanup 7 9)
          (@Reachable.init lp64 4096 88 zeroSlots freshArena rfl)),
      rfl, rfl⟩,
    (reuse_after_cleanup lp64 4096 88 fullArena staleArena freshArena 1 4 [⟨7, 9⟩] zeroSlots
      sampleOps (by decide) (by decide)
      (Reachable.call (ArenaCall.apply lp64 freshArena (.scheduleCleanup 7 9)).2 (.alloc 44)
        (Reachable.call freshArena (.scheduleCleanup 7 9)
          (@Reachable.init lp64 4096 88 zeroSlots freshArena rfl)))
      rfl rfl).1⟩

/-- Witness of C12: `sampleCalls` on `freshArena`; the destructor wrapper of
`_TestStruct` is called once on the address 4128 of the typed allocation. -/
theorem destructors_at_cleanup_witness :
    (0 < lp64.slotSize ∧ Ordered lp64 freshArena ∧ InRange freshArena ∧
        freshArena.cleanupActionsBottom = freshArena.end_ ∧
        (∀ U flag, ArenaCall.allocObject U flag ∈ sampleCalls → 0 < U.size) ∧
        (∀ f x, ArenaCall.scheduleCleanup f x ∈ sampleCalls → f ≠ testStruct.destroyObject) ∧
        (registeredBy lp64 sampleCalls freshArena).length ≤ 3) ∧
      ∃ tr, cleanupLoop lp64 (runCalls lp64 sampleCalls freshArena) 3
          (runCalls lp64 sampleCalls freshArena).cleanupActionsBottom = some tr ∧
        PiggyBankArenaCleanup lp64 3 (runCalls lp64 sampleCalls freshArena) =
          some (tr, { runCalls lp64 sampleCalls freshArena with
            heapTop := (runCalls lp64 sampleCalls freshArena).start lp64
            cleanupActionsBottom := (runCalls lp64 sampleCalls freshArena).end_ }) ∧
        (∀ p, (ArenaCall.allocObject testStruct true, some p)
            ∈ callLog lp64 sampleCalls freshArena →
          tr.count ⟨testStruct.destroyObject, p⟩ = 1) ∧
        (∀ p U, (ArenaCall.allocObject U false, some p) ∈ callLog lp64 sampleCalls freshArena →
          ⟨testStruct.destroyObject, p⟩ ∉ tr) ∧
        (∀ p s, 0 < s → (ArenaCall.alloc s, some p) ∈ callLog lp64 sampleCalls freshArena →
          ⟨testStruct.destroyObject, p⟩ ∉ tr) ∧
        PiggyBankArenaCleanupEvents lp64 3 (runCalls lp64 sampleCalls freshArena) =
          some (tr.map (fun v => CleanupEvent.call v
                (runCalls lp64 sampleCalls freshArena).heapTop
                (runCalls lp64 sampleCalls freshArena).cleanupActionsBottom) ++
              [CleanupEvent.setHeapTop ((runCalls lp64 sampleCalls freshArena).start lp64),
                CleanupEvent.setCleanupActionsBottom
                  (runCalls lp64 sampleCalls freshArena).end_],
            { runCalls lp64 sampleCalls freshArena with
              heapTop := (runCalls lp64 sampleCalls freshArena).start lp64
              cleanupActionsBottom := (runCalls lp64 sampleCalls freshArena).end_ }) :=
  ⟨⟨by decide, by decide, by decide, by decide,
      by
        intro U flag h
        simp only [sampleCalls, List.mem_cons, List.mem_singleton, ArenaCall.allocObject.injEq,
          reduceCtorEq, false_or, or_false, List.not_mem_nil] at h
        rw [h.1]
        decide,
      by
        intro f x h
        simp only [sampleCalls, List.mem_cons, List.mem_singleton,
          ArenaCall.scheduleCleanup.injEq, reduceCtorEq, false_or, or_false,
          List.not_mem_nil] at h
        rcases h with h | h | h <;> rw [h.1] <;> decide,
      by decide⟩,
    destructors_at_cleanup lp64 freshArena testStruct sampleCalls 3 (by decide) (by decide)
      (by decide) (by decide)
      (by
        intro U flag h
        simp only [sampleCalls, List.mem_cons, List.mem_singleton, ArenaCall.allocObject.injEq,
          reduceCtorEq, false_or, or_false, List.not_mem_nil] at h
        rw [h.1]
        decide)
      (by
        intro f x h
        simp only [sampleCalls, List.mem_cons, List.mem_singleton,
          ArenaCall.scheduleCleanup.injEq, reduceCtorEq, false_or, or_false,
          List.not_mem_nil] at h
        rcases h with h | h | h <;> rw [h.1] <;> decide)
      (by decide)⟩

/-! ## Direction of the two stacks -/

/-- C21: in a reachable state, a call of `alloc`, `scheduleCleanup` or `allocObject`
(any flag, success or failure) leaves `heapTop` where it was or higher,
`cleanupActionsBottom` where it was or lower, and `end` unchanged; a cleanup
keeps `end`, and an operation after which `heapTop` is lower or
`cleanupActionsBottom` is higher than before is a cleanup. -/
theorem stacks_monotone (L : Layout) (memory size : Nat) (a : PiggyBankArena)
    (hblock : memory + size < WORD) (h : Reachable L memory size a) :
    (∀ c : ArenaCall, a.heapTop ≤ (c.apply L a).2.heapTop ∧
        (c.apply L a).2.cleanupActionsBottom ≤ a.cleanupActionsBottom ∧
        (c.apply L a).2.end_ = a.end_) ∧
      (∀ fuel tr b, PiggyBankArenaCleanup L fuel a = some (tr, b) →
        b.end_ = a.end_ ∧ b.heapTop ≤ a.heapTop ∧ a.cleanupActionsBottom ≤ b.cleanupActionsBottom) ∧
      (∀ fuel op obs b, runOps L fuel [op] a = some (obs, b) →
        (b.heapTop < a.heapTop ∨ a.cleanupActionsBottom < b.cleanupActionsBottom) →
        op = ArenaOp.cleanup) := by
  obtain ⟨_, he, ho⟩ := reachable_ordered hblock h
  have hr : InRange a := by unfold InRange; omega
  have hcall : ∀ c : ArenaCall, a.heapTop ≤ (c.apply L a).2.heapTop ∧
      (c.apply L a).2.cleanupActionsBottom ≤ a.cleanupActionsBottom ∧
      (c.apply L a).2.end_ = a.end_ := by
    intro c
    obtain ⟨e1, e2, _, _⟩ := call_effect ho hr c
    obtain ⟨_, e3, _⟩ := call_ordered ho hr c
    exact ⟨by omega, by omega, e3⟩
  refine ⟨hcall, ?_, ?_⟩
  · intro fuel tr b hc
    obtain ⟨_, c2, _, c4, c5, _⟩ := cleanup_ordered ho hc
    have ho' := ho
    unfold Ordered at ho'
    exact ⟨c2, by omega, by omega⟩
  · intro fuel op obs b hrun hmove
    cases op with
    | cleanup => rfl
    | call c =>
      exfalso
      simp only [runOps, Option.some.injEq, Prod.mk.injEq] at hrun
      obtain ⟨_, hb⟩ := hrun
      subst hb
      obtain ⟨m1, m2, _⟩ := hcall c
      omega

/-- Witness of C21: a typed allocation with destructor on `freshArena`. -/
theorem stacks_monotone_witness :
    (4096 + 88 < WORD ∧ Reachable lp64 4096 88 freshArena) ∧
      (freshArena.heapTop ≤ (ArenaCall.apply lp64 freshArena (.allocObject testStruct true)).2.heapTop ∧
        (ArenaCall.apply lp64 freshArena (.allocObject testStruct true)).2.cleanupActionsBottom
          ≤ freshArena.cleanupActionsBottom ∧
        (ArenaCall.apply lp64 freshArena (.allocObject testStruct true)).2.end_ = freshArena.end_) :=
  ⟨⟨by decide, Reachable.init zeroSlots freshArena rfl⟩,
    (stacks_monotone lp64 4096 88 freshArena (by decide)
      (Reachable.init zeroSlots freshArena rfl)).1 (.allocObject testStruct true)⟩

/-! ## Zero-size allocations -/

/-- C23: under the ordering `PiggyBankArenaAlloc(arena, 0)` does not fail, whatever
space remains: it returns `heapTop` and leaves the arena as it was.  A second
zero-size allocation returns the same address, and the allocation that follows
returns this address again when it fits (it returns `NULL` when it does not). -/
theorem alloc_zero (L : Layout) (a : PiggyBankArena) (ho : Ordered L a) (hr : InRange a) :
    PiggyBankArenaAlloc a 0 = (some a.heapTop, a) ∧
      (a.cleanupActionsBottom - a.heapTop = 0 → (PiggyBankArenaAlloc a 0).1 = some a.heapTop) ∧
      (PiggyBankArenaAlloc (PiggyBankArenaAlloc a 0).2 0).1 = some a.heapTop ∧
      (∀ s, (PiggyBankArenaAlloc (PiggyBankArenaAlloc (PiggyBankArenaAlloc a 0).2 0).2 s).1 =
        if a.cleanupActionsBottom - a.heapTop < s then none else some a.heapTop) ∧
      (∀ s, 0 < s → s ≤ a.cleanupActionsBottom - a.heapTop →
        (PiggyBankArenaAlloc (PiggyBankArenaAlloc (PiggyBankArenaAlloc a 0).2 0).2 s).1 =
          some a.heapTop) := by
  have hzero : PiggyBankArenaAlloc a 0 = (some a.heapTop, a) := by
    rw [alloc_eq ho hr]
    simp
  have hs : ∀ s, (PiggyBankArenaAlloc a s).1 =
      if a.cleanupActionsBottom - a.heapTop < s then none else some a.heapTop := by
    intro s
    rw [alloc_eq ho hr]
    split_ifs <;> rfl
  refine ⟨hzero, fun _ => by rw [hzero], by rw [hzero, hzero], ?_, ?_⟩
  · intro s
    rw [hzero, hzero]
    exact hs s
  · intro s _ hfit
    rw [hzero, hzero, hs s]
    have : ¬ a.cleanupActionsBottom - a.heapTop < s := by omega
    simp [this]

/-- Witness of C23: `fullArena` after its last 4 bytes are handed out has no space left. -/
theorem alloc_zero_witness :
    (Ordered lp64 (PiggyBankArenaAlloc fullArena 4).2 ∧
        InRange (PiggyBankArenaAlloc fullArena 4).2 ∧
        (PiggyBankArenaAlloc fullArena 4).2.cleanupActionsBottom
          - (PiggyBankArenaAlloc fullArena 4).2.heapTop = 0) ∧
      PiggyBankArenaAlloc (PiggyBankArenaAlloc fullArena 4).2 0 =
        (some (PiggyBankArenaAlloc fullArena 4).2.heapTop, (PiggyBankArenaAlloc fullArena 4).2) :=
  ⟨⟨by decide, by decide, by decide⟩,
    (alloc_zero lp64 (PiggyBankArenaAlloc fullArena 4).2 (by decide) (by decide)).1⟩

/-! ## Cleanup twice -/

/-- C24: in a reachable state the cleanup returns (given one unit of fuel per slot
of the action stack), and a second cleanup right after it calls nothing and
leaves the arena, in particular `end`, `heapTop` and `cleanupActionsBottom`, as
the first one left it. -/
theorem cleanup_idempotent (L : Layout) (memory size : Nat) (a : PiggyBankArena) (fuel : Nat)
    (hs : 0 < L.slotSize) (hblock : memory + size < WORD) (h : Reachable L memory size a)
    (hfuel : (a.end_ - a.cleanupActionsBottom) / L.slotSize ≤ fuel) :
    (∃ tr a1, PiggyBankArenaCleanup L fuel a = some (tr, a1)) ∧
      ∀ fuel1 tr a1, PiggyBankArenaCleanup L fuel1 a = some (tr, a1) →
        ∀ fuel2, PiggyBankArenaCleanup L fuel2 a1 = some ([], a1) ∧
          ∀ tr2 a2, PiggyBankArenaCleanup L fuel2 a1 = some (tr2, a2) →
            tr2 = [] ∧ a2.end_ = a1.end_ ∧ a2.heapTop = a1.heapTop ∧
            a2.cleanupActionsBottom = a1.cleanupActionsBottom := by
  obtain ⟨_, _, he, ho, k, hk⟩ := reachable_inv hs hblock h
  have hr : InRange a := by unfold InRange; omega
  have hkdiv : (a.end_ - a.cleanupActionsBottom) / L.slotSize = k := by
    have : a.end_ - a.cleanupActionsBottom = k * L.slotSize := by omega
    rw [this, Nat.mul_div_cancel _ hs]
  have hloop := cleanupLoop_slotList a hs hr k fuel a.cleanupActionsBottom hk (by omega)
  refine ⟨⟨_, _, cleanup_of_loop hloop⟩, ?_⟩
  intro fuel1 tr a1 hc fuel2
  obtain ⟨c1, c2, _, c4, c5, _⟩ := cleanup_ordered ho hc
  have hloop2 : cleanupLoop L a1 fuel2 a1.cleanupActionsBottom = some [] :=
    cleanupLoop_of_ge L a1 fuel2 _ (by omega)
  have hsecond : PiggyBankArenaCleanup L fuel2 a1 = some ([], a1) := by
    have hstart : a1.start L = a1.heapTop := by
      unfold PiggyBankArena.start at *
      rw [c1, c4]
    have hbot : a1.end_ = a1.cleanupActionsBottom := by omega
    have hfix : ({ a1 with heapTop := a1.start L, cleanupActionsBottom := a1.end_ } :
        PiggyBankArena) = a1 := by
      rw [hstart]
      cases a1
      simp only [PiggyBankArena.mk.injEq, true_and, and_true]
      exact hbot
    rw [cleanup_of_loop hloop2, hfix]
  refine ⟨hsecond, ?_⟩
  intro tr2 a2 h2
  rw [hsecond] at h2
  simp only [Option.some.injEq, Prod.mk.injEq] at h2
  obtain ⟨e1, e2⟩ := h2
  subst e1 e2
  exact ⟨rfl, rfl, rfl, rfl⟩

/-- Witness of C24: the cleanup of `freshArena` after `sampleCalls`. -/
theorem cleanup_idempotent_witness :
    (0 < lp64.slotSize ∧ 4096 + 88 < WORD ∧
        Reachable lp64 4096 88 (ArenaCall.apply lp64 freshArena (.scheduleCleanup 1 10)).2 ∧
        ((ArenaCall.apply lp64 freshArena (.scheduleCleanup 1 10)).2.end_ -
          (ArenaCall.apply lp64 freshArena (.scheduleCleanup 1 10)).2.cleanupActionsBottom)
          / lp64.slotSize ≤ 1) ∧
      ∃ tr a1, PiggyBankArenaCleanup lp64 1
        (ArenaCall.apply lp64 freshArena (.scheduleCleanup 1 10)).2 = some (tr, a1) :=
  ⟨⟨by decide, by decide,
      Reachable.call freshArena (.scheduleCleanup 1 10) (Reachable.init zeroSlots freshArena rfl),
      by decide⟩,
    (cleanup_idempotent lp64 4096 88 (ArenaCall.apply lp64 freshArena (.scheduleCleanup 1 10)).2 1
      (by decide) (by decide)
      (Reachable.call freshArena (.scheduleCleanup 1 10) (Reachable.init zeroSlots freshArena rfl))
      (by decide)).1⟩

/-! ## Machine words -/

/-- C25: with 64-bit fields under the ordering and any `size` (in particular any
below `2^64`), the difference
`cleanupActionsBottom - heapTop` computed by `alloc` and `scheduleCleanup` is the
true difference (no wrap-around); `alloc` succeeds exactly when `heapTop + size ≤
cleanupActionsBottom`, and then `heapTop + size` does not overflow; a successful
registration lowers the bottom without wrapping; a request of `2^64 - 1` bytes
with less space remaining returns `NULL` and leaves the arena as it was. -/
theorem no_wraparound (L : Layout) (a : PiggyBankArena) (size : Nat) (ho : Ordered L a)
    (hr : InRange a) :
    ((wsub a.cleanupActionsBottom a.heapTop : Nat) : Int)
        = (a.cleanupActionsBottom : Int) - (a.heapTop : Int) ∧
      PiggyBankArenaRemainingSpace a = wsub a.cleanupActionsBottom a.heapTop ∧
      ((PiggyBankArenaAlloc a size).1.isSome = true ↔
        a.heapTop + size ≤ a.cleanupActionsBottom) ∧
      ((PiggyBankArenaAlloc a size).1.isSome = true →
        a.heapTop + size < WORD ∧
        (PiggyBankArenaAlloc a size).2.heapTop = a.heapTop + size) ∧
      (∀ f x, (PiggyBankArenaScheduleCleanup L a f x).1.isSome = true →
        ((PiggyBankArenaScheduleCleanup L a f x).2.cleanupActionsBottom : Int)
          = (a.cleanupActionsBottom : Int) - (L.slotSize : Int)) ∧
      (a.cleanupActionsBottom - a.heapTop < WORD - 1 →
        PiggyBankArenaAlloc a (WORD - 1) = (none, a)) := by
  have hrem := remaining_of_ordered ho hr
  have ho' := ho
  unfold Ordered at ho'
  obtain ⟨_, h2, h3⟩ := ho'
  have hr' : a.end_ < WORD := hr
  refine ⟨?_, rfl, ?_, ?_, ?_, ?_⟩
  · rw [hrem]; omega
  · rw [alloc_eq ho hr]
    split_ifs with hlt
    · simp; omega
    · simp; omega
  · rw [alloc_eq ho hr]
    split_ifs with hlt
    · simp
    · intro _
      exact ⟨by omega, rfl⟩
  · intro f x
    rw [scheduleCleanup_eq ho hr]
    split_ifs with hlt
    · simp
    · intro _
      simp only
      omega
  · intro hlt
    rw [alloc_eq ho hr]
    simp [hlt]

/-- Witness of C25: a request of `2^64 - 1` bytes on `sampleArena`. -/
theorem no_wraparound_witness :
    (Ordered lp64 sampleArena ∧ InRange sampleArena ∧ WORD - 1 < WORD ∧
        sampleArena.cleanupActionsBottom - sampleArena.heapTop < WORD - 1) ∧
      PiggyBankArenaAlloc sampleArena (WORD - 1) = (none, sampleArena) :=
  ⟨⟨by decide, by decide, by decide, by decide⟩,
    (no_wraparound lp64 sampleArena (WORD - 1) (by decide) (by decide)).2.2.2.2.2
      (by decide)⟩

/-! ## Iterations of the cleanup loop -/

/-- The calls made by the loop are the contents of the slots it visits. -/
theorem cleanupLoop_eq_visits (L : Layout) (a : PiggyBankArena) :
    ∀ (fuel action : Nat), cleanupLoop L a fuel action
      = (cleanupVisits L a fuel action).map (List.map a.slots) := by
  intro fuel
  induction fuel with
  | zero =>
    intro action
    simp only [cleanupLoop, cleanupVisits]
    split_ifs <;> rfl
  | succ fuel ih =>
    intro action
    simp only [cleanupLoop, cleanupVisits]
    split_ifs
    · rw [ih]
      cases cleanupVisits L a fuel (wadd action L.slotSize) <;> rfl
    · rfl

/-- Started `n` whole slots below `end`, the loop makes exactly `n` iterations and
visits the `n` slots from `action` upwards. -/
theorem cleanupVisits_aligned {L : Layout} (a : PiggyBankArena) (hs : 0 < L.slotSize)
    (hr : InRange a) :
    ∀ (n fuel action : Nat), action + n * L.slotSize = a.end_ →
      (n ≤ fuel → cleanupVisits L a fuel action = some (slotAddresses L action n)) ∧
      (fuel < n → cleanupVisits L a fuel action = none) := by
  intro n
  induction n with
  | zero =>
    intro fuel action hn
    refine ⟨fun _ => ?_, fun hlt => by omega⟩
    have hge : ¬ action < a.end_ := by omega
    cases fuel <;> simp [cleanupVisits, hge, slotAddresses]
  | succ n ih =>
    intro fuel action hn
    unfold InRange at hr
    have hstep : action + L.slotSize + n * L.slotSize = a.end_ := by
      rw [← hn, Nat.succ_mul]; omega
    have hlt : action < a.end_ := by omega
    have hw : wadd action L.slotSize = action + L.slotSize := by
      apply wadd_of_lt
      have : action + L.slotSize ≤ a.end_ := by
        rw [← hstep]; exact Nat.le_add_right _ _
      omega
    cases fuel with
    | zero =>
      refine ⟨fun hle => by omega, fun _ => ?_⟩
      simp [cleanupVisits, hlt]
    | succ fuel =>
      obtain ⟨j1, j2⟩ := ih fuel (action + L.slotSize) hstep
      refine ⟨fun hle => ?_, fun hlt' => ?_⟩
      · simp only [cleanupVisits, hlt, if_true, hw, slotAddresses]
        rw [j1 (by omega)]
      · simp only [cleanupVisits, hlt, if_true, hw]
        rw [j2 (by omega)]

/-- The `i`-th of `n` consecutive slots starts `i` slots above the first one. -/
theorem slotAddresses_getElem (L : Layout) :
    ∀ (n p i : Nat), i < n → (slotAddresses L p n)[i]? = some (p + i * L.slotSize) := by
  intro n
  induction n with
  | zero => intro p i hi; omega
  | succ n ih =>
    intro p i hi
    cases i with
    | zero => simp [slotAddresses]
    | succ i =>
      simp only [slotAddresses, List.getElem?_cons_succ]
      rw [ih (p + L.slotSize) i (by omega), Nat.succ_mul]
      simp only [Option.some.injEq]
      omega

theorem slotAddresses_length (L : Layout) :
    ∀ (n p : Nat), (slotAddresses L p n).length = n := by
  intro n
  induction n with
  | zero => intro p; rfl
  | succ n ih => intro p; simp [slotAddresses, ih]

/-- C22: in a reachable state (callbacks returning and leaving the arena alone) the
loop of `PiggyBankArenaCleanup` started at `cleanupActionsBottom` makes exactly
`(end - cleanupActionsBottom) / slotSize` iterations: it finishes with that much
fuel and not with less.  Its `i`-th iteration reads the slot at
`cleanupActionsBottom + i * slotSize`; these addresses increase strictly, start
at `cleanupActionsBottom`, and each slot read ends at or below `end`. -/
theorem cleanup_loop_iterations (L : Layout) (memory size : Nat) (a : PiggyBankArena)
    (hs : 0 < L.slotSize) (hblock : memory + size < WORD) (h : Reachable L memory size a) :
    a.cleanupActionsBottom + (a.end_ - a.cleanupActionsBottom) / L.slotSize * L.slotSize
        = a.end_ ∧
      (∀ fuel, (a.end_ - a.cleanupActionsBottom) / L.slotSize ≤ fuel →
        cleanupVisits L a fuel a.cleanupActionsBottom =
          some (slotAddresses L a.cleanupActionsBottom
            ((a.end_ - a.cleanupActionsBottom) / L.slotSize)) ∧
        cleanupLoop L a fuel a.cleanupActionsBottom =
          some ((slotAddresses L a.cleanupActionsBottom
            ((a.end_ - a.cleanupActionsBottom) / L.slotSize)).map a.slots)) ∧
      (∀ fuel, fuel < (a.end_ - a.cleanupActionsBottom) / L.slotSize →
        cleanupVisits L a fuel a.cleanupActionsBottom = none ∧
        cleanupLoop L a fuel a.cleanupActionsBottom = none ∧
        PiggyBankArenaCleanup L fuel a = none) ∧
      (slotAddresses L a.cleanupActionsBottom
        ((a.end_ - a.cleanupActionsBottom) / L.slotSize)).length
        = (a.end_ - a.cleanupActionsBottom) / L.slotSize ∧
      (∀ i, i < (a.end_ - a.cleanupActionsBottom) / L.slotSize →
        (slotAddresses L a.cleanupActionsBottom
          ((a.end_ - a.cleanupActionsBottom) / L.slotSize))[i]?
          = some (a.cleanupActionsBottom + i * L.slotSize) ∧
        a.cleanupActionsBottom + i * L.slotSize < a.end_ ∧
        a.cleanupActionsBottom + i * L.slotSize + L.slotSize ≤ a.end_) ∧
      (∀ i j, i < j → j < (a.end_ - a.cleanupActionsBottom) / L.slotSize →
        a.cleanupActionsBottom + i * L.slotSize < a.cleanupActionsBottom + j * L.slotSize) := by
  obtain ⟨_, _, he, ho, k, hk⟩ := reachable_inv hs hblock h
  have hr : InRange a := by unfold InRange; omega
  have hkdiv : (a.end_ - a.cleanupActionsBottom) / L.slotSize = k := by
    have : a.end_ - a.cleanupActionsBottom = k * L.slotSize := by omega
    rw [this, Nat.mul_div_cancel _ hs]
  rw [hkdiv]
  refine ⟨hk, ?_, ?_, slotAddresses_length L k _, ?_, ?_⟩
  · intro fuel hfuel
    have hv := (cleanupVisits_aligned a hs hr k fuel a.cleanupActionsBottom hk).1 hfuel
    refine ⟨hv, ?_⟩
    rw [cleanupLoop_eq_visits, hv]
    rfl
  · intro fuel hfuel
    have hv := (cleanupVisits_aligned a hs hr k fuel a.cleanupActionsBottom hk).2 hfuel
    have hl : cleanupLoop L a fuel a.cleanupActionsBottom = none := by
      rw [cleanupLoop_eq_visits, hv]
      rfl
    refine ⟨hv, hl, ?_⟩
    unfold PiggyBankArenaCleanup
    rw [hl]
  · intro i hi
    have hmul : (i + 1) * L.slotSize ≤ k * L.slotSize := Nat.mul_le_mul_right _ (by omega)
    rw [Nat.succ_mul] at hmul
    exact ⟨slotAddresses_getElem L k _ i hi, by omega, by omega⟩
  · intro i j hij _
    have hmul : (i + 1) * L.slotSize ≤ j * L.slotSize := Nat.mul_le_mul_right _ (by omega)
    rw [Nat.succ_mul] at hmul
    omega

/-- Witness of C22: the loop on `freshArena` after `sampleCalls`, three slots. -/
theorem cleanup_loop_iterations_witness :
    (0 < lp64.slotSize ∧ 4096 + 88 < WORD ∧
        Reachable lp64 4096 88 (runCalls lp64 sampleCalls freshArena)) ∧
      (runCalls lp64 sampleCalls freshArena).cleanupActionsBottom +
          ((runCalls lp64 sampleCalls freshArena).end_ -
            (runCalls lp64 sampleCalls freshArena).cleanupActionsBottom) / lp64.slotSize
            * lp64.slotSize
        = (runCalls lp64 sampleCalls freshArena).end_ :=
  ⟨⟨by decide, by decide,
      Reachable.call _ (.scheduleCleanup 3 30) (Reachable.call _ (.scheduleCleanup 2 20)
        (Reachable.call _ (.allocObject testStruct true) (Reachable.call _ (.alloc 8)
          (Reachable.call _ (.scheduleCleanup 1 10)
            (@Reachable.init lp64 4096 88 zeroSlots freshArena rfl)))))⟩,
    (cleanup_loop_iterations lp64 4096 88 (runCalls lp64 sampleCalls freshArena) (by decide)
      (by decide)
      (Reachable.call _ (.scheduleCleanup 3 30) (Reachable.call _ (.scheduleCleanup 2 20)
        (Reachable.call _ (.allocObject testStruct true) (Reachable.call _ (.alloc 8)
          (Reachable.call _ (.scheduleCleanup 1 10)
            (@Reachable.init lp64 4096 88 zeroSlots freshArena rfl))))))).1⟩

/-! ## The three variants -/

/-- The loops of the three cleanups are the same function. -/
theorem cleanupLoop_variants (L : Layout) (a : PiggyBankArena) :
    ∀ (fuel action : Nat),
      PiggyBankArenaC.cleanupLoop L a fuel action = cleanupLoop L a fuel action ∧
      PiggyBankArena.cleanupLoop L a fuel action = cleanupLoop L a fuel action := by
  intro fuel
  induction fuel with
  | zero =>
    intro action
    exact ⟨rfl, rfl⟩
  | succ fuel ih =>
    intro action
    simp only [PiggyBankArenaC.cleanupLoop, PiggyBankArena.cleanupLoop, cleanupLoop,
      (ih (wadd action L.slotSize)).1, (ih (wadd action L.slotSize)).2, and_self]

/-- C26: with the header size as a common parameter, `init`, `alloc`,
`scheduleCleanup` and cleanup of `PiggyBankArenaC.h` (through
`PiggyBankArenaRemainingSpace`), of `PiggyBankArena.h` (subtraction inlined) and
of `PiggyBankArenaCPP.hpp` (member functions, through `remainingSpace`) return
the same result and the same arena on every input; so do
`PiggyBankArenaAllocObject<T>` and `PiggyBankArena::allocObject<T>` (each
registering the wrapper address given for `T`), and the two destructor wrappers. -/
theorem variants_agree (L : Layout) (slots : Nat → _PiggyBankArenaCleanupAction)
    (memory size f x fuel obj : Nat) (T : ObjType) (flag : Bool) (a : PiggyBankArena) :
    (PiggyBankArenaC.PiggyBankArenaInit L slots memory size
        = PiggyBankArenaInit L slots memory size ∧
      PiggyBankArena.init L slots memory size = PiggyBankArenaInit L slots memory size) ∧
    (PiggyBankArenaRemainingSpace a = wsub a.cleanupActionsBottom a.heapTop ∧
      a.remainingSpace = wsub a.cleanupActionsBottom a.heapTop) ∧
    (PiggyBankArenaC.PiggyBankArenaAlloc a size = PiggyBankArenaAlloc a size ∧
      a.alloc size = PiggyBankArenaAlloc a size) ∧
    (PiggyBankArenaC.PiggyBankArenaScheduleCleanup L a f x
        = PiggyBankArenaScheduleCleanup L a f x ∧
      a.scheduleCleanup L f x = PiggyBankArenaScheduleCleanup L a f x) ∧
    (PiggyBankArenaC.PiggyBankArenaCleanup L fuel a = PiggyBankArenaCleanup L fuel a ∧
      a.cleanup L fuel = PiggyBankArenaCleanup L fuel a) ∧
    a.allocObject L T flag = PiggyBankArenaAllocObject L T a flag ∧
    PiggyBankArena._destroyObject obj = _PiggyBankArenaDestroyObject obj := by
  have halloc : ∀ (b : PiggyBankArena) (s : Nat), b.alloc s = PiggyBankArenaAlloc b s :=
    fun _ _ => rfl
  have hsched : ∀ (b : PiggyBankArena) (g y : Nat),
      b.scheduleCleanup L g y = PiggyBankArenaScheduleCleanup L b g y := fun _ _ _ => rfl
  refine ⟨⟨rfl, rfl⟩, ⟨rfl, rfl⟩, ⟨rfl, halloc a size⟩, ⟨rfl, hsched a f x⟩, ⟨?_, ?_⟩, ?_, rfl⟩
  · unfold PiggyBankArenaC.PiggyBankArenaCleanup PiggyBankArenaCleanup
    rw [(cleanupLoop_variants L a fuel a.cleanupActionsBottom).1]
  · unfold PiggyBankArena.cleanup PiggyBankArenaCleanup
    rw [(cleanupLoop_variants L a fuel a.cleanupActionsBottom).2]
  · unfold PiggyBankArena.allocObject PiggyBankArenaAllocObject
    rw [halloc]
    cases PiggyBankArenaAlloc a T.size with
    | mk r a1 =>
      cases r with
      | none => rfl
      | some p =>
        simp only [hsched]

/-- The events of the cleanup of `freshArena` after `sampleCalls`: three calls, most
recently registered first, each seeing `heapTop = cleanupActionsBottom = 4136`,
then the two writes to the header. -/
theorem cleanupEvents_sample :
    (PiggyBankArenaCleanupEvents lp64 3 (runCalls lp64 sampleCalls freshArena)).map Prod.fst =
      some [CleanupEvent.call ⟨2, 20⟩ 4136 4136,
        CleanupEvent.call ⟨testStruct.destroyObject, 4128⟩ 4136 4136,
        CleanupEvent.call ⟨1, 10⟩ 4136 4136,
        CleanupEvent.setHeapTop 4120, CleanupEvent.setCleanupActionsBottom 4184] := by
  decide

end PiggyBank
